import Mathlib

/-!
# Verification of the task-storage engine

A shallow embedding of the task-storage engine of the `to-do_project`
repository (file containing `inMemoryTaskStore` and `jsonTaskStore`),
together with proofs of the specification's claims about it.

Go maps are modelled as association lists (`List (K × V)`); `mfind?`,
`minsert` and `merase` mirror Go map read, write and `delete`.  Go map
iteration order is unspecified; the association-list order is a
deterministic stand-in, and no claim proved below depends on it.
Machine integers (`int`) are modelled as `Int`; no operation here can
overflow under any feasible call sequence.  The `sync.Mutex` fields are
concurrency control and have no effect on the sequential semantics
modelled here: every store operation holds the lock for its whole
duration, so the store is a sequential object.  The backing file of the
JSON store is modelled as a `file` field holding the decoded document;
`saveToFile` overwrites it with the current task collection (JSON
serialization is injective on this data, so the document is identified
with its decoded value).
-/

namespace ToDo

/-- The task record (`type Task struct`): id, title, description, completed. -/
structure Task where
  ID : Int
  Title : String
  Description : String
  Completed : Bool
deriving DecidableEq, Repr

/-- Go map lookup `m[k]` (comma-ok form): first binding of the key, if any. -/
def mfind? {K V : Type} [DecidableEq K] : List (K × V) → K → Option V
  | [], _ => none
  | (k, v) :: rest, key => if k = key then some v else mfind? rest key

/-- Go map write `m[k] = v`: replace the binding in place, or append it. -/
def minsert {K V : Type} [DecidableEq K] : List (K × V) → K → V → List (K × V)
  | [], key, val => [(key, val)]
  | (k, v) :: rest, key, val =>
    if k = key then (key, val) :: rest else (k, v) :: minsert rest key val

/-- Go `delete(m, k)`: remove the (first) binding of the key. -/
def merase {K V : Type} [DecidableEq K] : List (K × V) → K → List (K × V)
  | [], _ => []
  | (k, v) :: rest, key => if k = key then rest else (k, v) :: merase rest key

/-- Insert into a sorted list of ints, keeping it sorted. -/
def insertSorted (x : Int) : List Int → List Int
  | [] => [x]
  | y :: ys => if x ≤ y then x :: y :: ys else y :: insertSorted x ys

/-- `sort.Ints`: sort a list of ints ascending (insertion sort). -/
def sortInts : List Int → List Int
  | [] => []
  | x :: xs => insertSorted x (sortInts xs)

/-! ## The in-memory backend (`inMemoryTaskStore`)

Go field `tasks : map[int]map[string]Task` maps a task id to the map
from owning user name to the task record. -/

structure inMemoryTaskStore where
  tasks : List (Int × List (String × Task))
  idSeq : Int
  reusableIds : List Int
deriving DecidableEq, Repr

/-- `localTaskStore()`: the fresh empty in-memory store. -/
def localTaskStore : inMemoryTaskStore :=
  { tasks := [], idSeq := 0, reusableIds := [] }

/-- `(*inMemoryTaskStore).AddTask`: allocate an id (head of the free-list if
non-empty, else the incremented sequence counter), build the task, store it
under the user, return it. -/
def inMemoryTaskStore.AddTask (store : inMemoryTaskStore)
    (userName title description : String) : inMemoryTaskStore × Task :=
  let alloc :=
    match store.reusableIds with
    | i :: rest => (i, rest, store.idSeq)
    | [] => (store.idSeq + 1, ([] : List Int), store.idSeq + 1)
  let id := alloc.1
  let task : Task :=
    { ID := id, Title := title, Description := description, Completed := false }
  let userMap := (mfind? store.tasks id).getD []
  ({ tasks := minsert store.tasks id (minsert userMap userName task)
     idSeq := alloc.2.2
     reusableIds := alloc.2.1 }, task)

/-- `(*inMemoryTaskStore).RemoveTask`: error `"task not found"` if the id has
no live entry, error `"task not found for user"` if it has one but not for
this user; otherwise delete the user's entry (dropping the id's map when it
empties), reclaim the id into the free-list and re-sort the free-list. -/
def inMemoryTaskStore.RemoveTask (store : inMemoryTaskStore)
    (userName : String) (id : Int) : inMemoryTaskStore × Option String :=
  match mfind? store.tasks id with
  | none => (store, some "task not found")
  | some userMap =>
    match mfind? userMap userName with
    | none => (store, some "task not found for user")
    | some _ =>
      let userMap2 := merase userMap userName
      let tasks2 :=
        if userMap2 = [] then merase store.tasks id
        else minsert store.tasks id userMap2
      ({ tasks := tasks2
         idSeq := store.idSeq
         reusableIds := sortInts (store.reusableIds ++ [id]) }, none)

/-- `(*inMemoryTaskStore).ListTasks`: every task stored under this user. -/
def inMemoryTaskStore.ListTasks (store : inMemoryTaskStore)
    (userName : String) : List Task :=
  store.tasks.filterMap (fun p => mfind? p.2 userName)

/-- `(*inMemoryTaskStore).GetTask`: the task at this id for this user, or
error `"task not found for user"` (same error whether the id is absent
altogether or held by a different user). -/
def inMemoryTaskStore.GetTask (store : inMemoryTaskStore)
    (userName : String) (id : Int) : Except String Task :=
  match mfind? store.tasks id with
  | some userTasks =>
    match mfind? userTasks userName with
    | some task => .ok task
    | none => .error "task not found for user"
  | none => .error "task not found for user"

/-- `(*inMemoryTaskStore).CompleteTask`: set `Completed` of the user's task at
this id to true; error `"task not found for user"` in both miss cases. -/
def inMemoryTaskStore.CompleteTask (store : inMemoryTaskStore)
    (userName : String) (id : Int) : inMemoryTaskStore × Option String :=
  match mfind? store.tasks id with
  | some userTasks =>
    match mfind? userTasks userName with
    | some task =>
      ({ store with
         tasks := minsert store.tasks id
           (minsert userTasks userName { task with Completed := true }) }, none)
    | none => (store, some "task not found for user")
  | none => (store, some "task not found for user")

/-! ## The file backend (`jsonTaskStore`)

Go field `tasks : map[string]map[int]Task` maps a user name to the map from
task id to task record.  The extra `file` field models the decoded content
of the backing JSON document. -/

structure jsonTaskStore where
  tasks : List (String × List (Int × Task))
  idSeq : Int
  reusableIds : List Int
  file : List (String × List (Int × Task))
deriving DecidableEq, Repr

/-- `(*jsonTaskStore).saveToFile`: overwrite the backing document with the
whole current task collection. -/
def jsonTaskStore.saveToFile (store : jsonTaskStore) : jsonTaskStore :=
  { store with file := store.tasks }

/-- `(*jsonTaskStore).AddTask`: allocate an id exactly as the in-memory
backend does, store the task under the user, save to file, return it. -/
def jsonTaskStore.AddTask (store : jsonTaskStore)
    (userName title description : String) : jsonTaskStore × Task :=
  let alloc :=
    match store.reusableIds with
    | i :: rest => (i, rest, store.idSeq)
    | [] => (store.idSeq + 1, ([] : List Int), store.idSeq + 1)
  let id := alloc.1
  let task : Task :=
    { ID := id, Title := title, Description := description, Completed := false }
  let userTasks := (mfind? store.tasks userName).getD []
  let store2 : jsonTaskStore :=
    { store with
      tasks := minsert store.tasks userName (minsert userTasks task.ID task)
      idSeq := alloc.2.2
      reusableIds := alloc.2.1 }
  (store2.saveToFile, task)

/-- `(*jsonTaskStore).RemoveTask`: error `"user not found"` if the user has no
task map at all, error `"task not found for user"` if the id is not among the
user's tasks; otherwise delete it (dropping the user's key when the map
empties), append the id to the free-list (the Go code does not re-sort it
here) and save to file. -/
def jsonTaskStore.RemoveTask (store : jsonTaskStore)
    (userName : String) (id : Int) : jsonTaskStore × Option String :=
  match mfind? store.tasks userName with
  | some userTasks =>
    match mfind? userTasks id with
    | none => (store, some "task not found for user")
    | some _ =>
      let userTasks2 := merase userTasks id
      let tasks2 :=
        if userTasks2 = [] then merase store.tasks userName
        else minsert store.tasks userName userTasks2
      let store2 : jsonTaskStore :=
        { store with
          tasks := tasks2
          reusableIds := store.reusableIds ++ [id] }
      (store2.saveToFile, none)
  | none => (store, some "user not found")

/-- `(*jsonTaskStore).ListTasks`: every task in this user's map (empty list,
not an error, when the user has no map). -/
def jsonTaskStore.ListTasks (store : jsonTaskStore)
    (userName : String) : List Task :=
  ((mfind? store.tasks userName).getD []).map Prod.snd

/-- `(*jsonTaskStore).GetTask`: the user's task at this id, or error
`"task not found for user"` in both miss cases. -/
def jsonTaskStore.GetTask (store : jsonTaskStore)
    (userName : String) (id : Int) : Except String Task :=
  match mfind? store.tasks userName with
  | some userTasks =>
    match mfind? userTasks id with
    | some task => .ok task
    | none => .error "task not found for user"
  | none => .error "task not found for user"

/-- `(*jsonTaskStore).CompleteTask`: set `Completed` of the user's task at
this id to true and save to file; error `"task not found for user"` in both
miss cases. -/
def jsonTaskStore.CompleteTask (store : jsonTaskStore)
    (userName : String) (id : Int) : jsonTaskStore × Option String :=
  match mfind? store.tasks userName with
  | some userTasks =>
    match mfind? userTasks id with
    | some task =>
      let store2 : jsonTaskStore :=
        { store with
          tasks := minsert store.tasks userName
            (minsert userTasks id { task with Completed := true }) }
      (store2.saveToFile, none)
    | none => (store, some "task not found for user")
  | none => (store, some "task not found for user")

/-- Highest id found in a decoded document (`highestID` loop of
`loadFromFile`): fold of `if id > h then id else h` starting from 0. -/
def fileHighestID (file : List (String × List (Int × Task))) : Int :=
  file.foldl (fun h p => p.2.foldl (fun h2 q => if q.1 > h2 then q.1 else h2) h) 0

/-- `usedIds` membership of `loadFromFile`: some user's map holds this id. -/
def fileUsed (file : List (String × List (Int × Task))) (id : Int) : Bool :=
  file.any (fun p => p.2.any (fun q => q.1 == id))

/-- `(*jsonTaskStore).loadFromFile` on a successfully decoded document:
install the decoded tasks, recompute the highest id, and rebuild the
free-list as every id in `[1, highestID)` not used by any task, scanned
in ascending order. -/
def jsonTaskStore.loadFromFile (file : List (String × List (Int × Task))) :
    jsonTaskStore :=
  { tasks := file
    idSeq := fileHighestID file
    reusableIds :=
      ((List.range (fileHighestID file - 1).toNat).map
          (fun n => Int.ofNat n + 1)).filter (fun id => ! fileUsed file id)
    file := file }

/-- `newJSONTaskStore` on an absent backing file: an empty document is
created and loaded. -/
def newJSONTaskStore : jsonTaskStore := jsonTaskStore.loadFromFile []

/-! ## Call sequences

One operation type covering the store interface, and fold-style execution
from the empty store, for the trace-quantified claims. -/

/-- One call of the `TaskStore` interface. -/
inductive Op where
  | add (userName title description : String)
  | remove (userName : String) (id : Int)
  | complete (userName : String) (id : Int)
  | get (userName : String) (id : Int)
  | list (userName : String)
deriving DecidableEq, Repr

/-- The user a call is issued for. -/
def Op.user : Op → String
  | .add u _ _ => u
  | .remove u _ => u
  | .complete u _ => u
  | .get u _ => u
  | .list u => u

/-- Execute one call against the in-memory store (result discarded). -/
def execMem (s : inMemoryTaskStore) : Op → inMemoryTaskStore
  | .add u t d => (s.AddTask u t d).1
  | .remove u id => (s.RemoveTask u id).1
  | .complete u id => (s.CompleteTask u id).1
  | .get _ _ => s
  | .list _ => s

/-- Execute a call sequence against the fresh in-memory store. -/
def runMem (ops : List Op) : inMemoryTaskStore :=
  ops.foldl execMem localTaskStore

/-- Execute one call against the file-backed store (result discarded). -/
def execJson (s : jsonTaskStore) : Op → jsonTaskStore
  | .add u t d => (s.AddTask u t d).1
  | .remove u id => (s.RemoveTask u id).1
  | .complete u id => (s.CompleteTask u id).1
  | .get _ _ => s
  | .list _ => s

/-- Execute a call sequence against a store loaded from an empty document. -/
def runJson (ops : List Op) : jsonTaskStore :=
  ops.foldl execJson newJSONTaskStore

/-- The live task of user `u` with identifier `id` in the in-memory store. -/
def memFind (s : inMemoryTaskStore) (id : Int) (u : String) : Option Task :=
  match mfind? s.tasks id with
  | some m => mfind? m u
  | none => none

/-- The live task of user `u` with identifier `id` in the file-backed store. -/
def jsonFind (s : jsonTaskStore) (u : String) (id : Int) : Option Task :=
  match mfind? s.tasks u with
  | some m => mfind? m id
  | none => none

/-- The keys of an association list. -/
def mkeys {K V : Type} (m : List (K × V)) : List K := m.map Prod.fst

/-! ## Association-list map lemmas -/

theorem mfind?_minsert_self {K V : Type} [DecidableEq K]
    (m : List (K × V)) (k : K) (v : V) : mfind? (minsert m k v) k = some v := by
  induction m with
  | nil => simp [minsert, mfind?]
  | cons p rest ih =>
    obtain ⟨a, b⟩ := p
    by_cases h : a = k
    · simp [minsert, h, mfind?]
    · simp [minsert, h, mfind?, ih]

theorem mfind?_minsert_ne {K V : Type} [DecidableEq K]
    (m : List (K × V)) (k k' : K) (v : V) (h : k' ≠ k) :
    mfind? (minsert m k v) k' = mfind? m k' := by
  induction m with
  | nil => simp [minsert, mfind?, Ne.symm h]
  | cons p rest ih =>
    obtain ⟨a, b⟩ := p
    by_cases ha : a = k
    · subst ha
      simp [minsert, mfind?, Ne.symm h]
    · simp [minsert, if_neg ha, mfind?, ih]

theorem mfind?_merase_ne {K V : Type} [DecidableEq K]
    (m : List (K × V)) (k k' : K) (h : k' ≠ k) :
    mfind? (merase m k) k' = mfind? m k' := by
  induction m with
  | nil => simp [merase]
  | cons p rest ih =>
    obtain ⟨a, b⟩ := p
    by_cases ha : a = k
    · subst ha
      simp [merase, mfind?, Ne.symm h]
    · simp [merase, if_neg ha, mfind?, ih]

theorem mfind?_eq_none_iff {K V : Type} [DecidableEq K]
    (m : List (K × V)) (k : K) : mfind? m k = none ↔ k ∉ mkeys m := by
  induction m with
  | nil => simp [mfind?, mkeys]
  | cons p rest ih =>
    obtain ⟨a, b⟩ := p
    by_cases h : a = k
    · simp [mfind?, h, mkeys]
    · simp [mfind?, if_neg h, mkeys, ih, Ne.symm h]

theorem mfind?_merase_self {K V : Type} [DecidableEq K]
    (m : List (K × V)) (k : K) (h : (mkeys m).Nodup) :
    mfind? (merase m k) k = none := by
  induction m with
  | nil => simp [merase, mfind?]
  | cons p rest ih =>
    obtain ⟨a, b⟩ := p
    simp only [mkeys, List.map_cons, List.nodup_cons] at h
    by_cases ha : a = k
    · subst ha
      simp only [merase, if_pos rfl]
      rw [mfind?_eq_none_iff]
      exact h.1
    · simp only [merase, if_neg ha, mfind?, if_neg ha]
      exact ih h.2

theorem mkeys_nil {K V : Type} : mkeys ([] : List (K × V)) = [] := rfl

theorem mkeys_cons {K V : Type} (p : K × V) (rest : List (K × V)) :
    mkeys (p :: rest) = p.1 :: mkeys rest := rfl

theorem mkeys_minsert_mem {K V : Type} [DecidableEq K]
    (m : List (K × V)) (k : K) (v : V) (a : K) (h : a ∈ mkeys (minsert m k v)) :
    a ∈ mkeys m ∨ a = k := by
  induction m with
  | nil =>
    simp only [minsert, mkeys_cons, List.mem_cons] at h
    rcases h with h' | h'
    · exact Or.inr h'
    · simp [mkeys] at h'
  | cons p rest ih =>
    obtain ⟨b, c⟩ := p
    by_cases hb : b = k
    · subst hb
      simp only [minsert, if_true, eq_self_iff_true, mkeys_cons, List.mem_cons] at h
      rcases h with h' | h'
      · exact Or.inr h'
      · exact Or.inl (by simp only [mkeys_cons, List.mem_cons]; exact Or.inr h')
    · simp only [minsert, if_neg hb, mkeys_cons, List.mem_cons] at h
      rcases h with h' | h'
      · exact Or.inl (by simp only [mkeys_cons, List.mem_cons]; exact Or.inl h')
      · rcases ih h' with h'' | h''
        · exact Or.inl (by simp only [mkeys_cons, List.mem_cons]; exact Or.inr h'')
        · exact Or.inr h''

theorem mkeys_minsert_nodup {K V : Type} [DecidableEq K]
    (m : List (K × V)) (k : K) (v : V) (h : (mkeys m).Nodup) :
    (mkeys (minsert m k v)).Nodup := by
  induction m with
  | nil => simp [minsert, mkeys]
  | cons p rest ih =>
    obtain ⟨a, b⟩ := p
    simp only [mkeys, List.map_cons, List.nodup_cons] at h
    by_cases ha : a = k
    · subst ha
      simpa [minsert, mkeys, List.nodup_cons] using h
    · simp only [minsert, if_neg ha, mkeys, List.map_cons, List.nodup_cons]
      refine ⟨?_, ih h.2⟩
      intro hmem
      rcases (mkeys_minsert_mem rest k v a hmem) with h' | h'
      · exact h.1 h'
      · exact ha h'

theorem mkeys_merase_sublist {K V : Type} [DecidableEq K]
    (m : List (K × V)) (k : K) : (mkeys (merase m k)).Sublist (mkeys m) := by
  induction m with
  | nil => simp [merase]
  | cons p rest ih =>
    obtain ⟨a, b⟩ := p
    by_cases ha : a = k
    · simp only [merase, if_pos ha, mkeys, List.map_cons]
      exact (List.sublist_cons_self _ _)
    · simp only [merase, if_neg ha, mkeys, List.map_cons]
      exact ih.cons₂ a

theorem mkeys_merase_nodup {K V : Type} [DecidableEq K]
    (m : List (K × V)) (k : K) (h : (mkeys m).Nodup) :
    (mkeys (merase m k)).Nodup := (mkeys_merase_sublist m k).nodup h

theorem minsert_ne_nil {K V : Type} [DecidableEq K]
    (m : List (K × V)) (k : K) (v : V) : minsert m k v ≠ [] := by
  cases m with
  | nil => simp [minsert]
  | cons p rest =>
    obtain ⟨a, b⟩ := p
    by_cases ha : a = k <;> simp [minsert, ha]

theorem mfind?_of_mem {K V : Type} [DecidableEq K]
    (m : List (K × V)) (p : K × V) (h : (mkeys m).Nodup) (hp : p ∈ m) :
    mfind? m p.1 = some p.2 := by
  induction m with
  | nil => cases hp
  | cons q rest ih =>
    obtain ⟨a, b⟩ := q
    simp only [mkeys, List.map_cons, List.nodup_cons] at h
    rcases List.mem_cons.mp hp with h' | h'
    · subst h'
      simp [mfind?]
    · have hne : a ≠ p.1 := by
        intro hak
        apply h.1
        rw [hak]
        exact List.mem_map_of_mem Prod.fst h'
      simp only [mfind?, if_neg hne]
      exact ih h.2 h'

/-! ## Sorting lemmas (`sort.Ints`) -/

theorem insertSorted_perm (x : Int) (l : List Int) :
    List.Perm (insertSorted x l) (x :: l) := by
  induction l with
  | nil => simp [insertSorted]
  | cons y ys ih =>
    by_cases h : x ≤ y
    · simp [insertSorted, h]
    · simp only [insertSorted, if_neg h]
      exact (ih.cons y).trans (List.Perm.swap x y ys)

theorem sortInts_perm (l : List Int) : List.Perm (sortInts l) l := by
  induction l with
  | nil => simp [sortInts]
  | cons x xs ih =>
    exact (insertSorted_perm x (sortInts xs)).trans (ih.cons x)

theorem mem_sortInts (a : Int) (l : List Int) : a ∈ sortInts l ↔ a ∈ l :=
  (sortInts_perm l).mem_iff

theorem sortInts_nodup (l : List Int) (h : l.Nodup) : (sortInts l).Nodup :=
  (sortInts_perm l).nodup_iff.mpr h

/-! ## Per-operation characterizations

`memFind`/`jsonFind` equal `mfind?` composed through `Option.getD` (the
miss case gives the empty inner map, whose lookup is `none`), so both
stores share one two-level insertion lemma. -/

theorem memFind_eq (s : inMemoryTaskStore) (id : Int) (u : String) :
    memFind s id u = mfind? ((mfind? s.tasks id).getD []) u := by
  unfold memFind
  cases mfind? s.tasks id <;> simp [mfind?]

theorem jsonFind_eq (s : jsonTaskStore) (u : String) (id : Int) :
    jsonFind s u id = mfind? ((mfind? s.tasks u).getD []) id := by
  unfold jsonFind
  cases mfind? s.tasks u <;> simp [mfind?]

theorem mfind?_insert2 {A B V : Type} [DecidableEq A] [DecidableEq B]
    (m : List (A × List (B × V))) (a : A) (b : B) (t : V) (a' : A) (b' : B) :
    mfind? ((mfind? (minsert m a (minsert ((mfind? m a).getD []) b t)) a').getD []) b' =
      if a' = a ∧ b' = b then some t
      else mfind? ((mfind? m a').getD []) b' := by
  by_cases ha : a' = a
  · subst ha
    rw [mfind?_minsert_self]
    by_cases hb : b' = b
    · subst hb
      simp [mfind?_minsert_self]
    · simp only [hb, and_false, if_false, Option.getD_some]
      exact mfind?_minsert_ne _ _ _ _ hb
  · rw [mfind?_minsert_ne _ _ _ _ ha]
    simp [ha]

/-- Effect of `inMemoryTaskStore.AddTask` on the live-task view: the new
task appears for its creator at the allocated id; every other (id, user)
slot is untouched. -/
theorem memFind_AddTask (s : inMemoryTaskStore) (u title description : String)
    (id' : Int) (u' : String) :
    memFind (s.AddTask u title description).1 id' u' =
      if id' = (s.AddTask u title description).2.ID ∧ u' = u
      then some (s.AddTask u title description).2
      else memFind s id' u' := by
  rw [memFind_eq, memFind_eq]
  cases hr : s.reusableIds with
  | nil =>
    simpa [inMemoryTaskStore.AddTask, hr] using
      mfind?_insert2 s.tasks (s.idSeq + 1) u
        { ID := s.idSeq + 1, Title := title, Description := description,
          Completed := false } id' u'
  | cons i rest =>
    simpa [inMemoryTaskStore.AddTask, hr] using
      mfind?_insert2 s.tasks i u
        { ID := i, Title := title, Description := description,
          Completed := false } id' u'

/-- `inMemoryTaskStore.AddTask` returns the stored task verbatim, and its
bookkeeping fields move as the free-list dictates. -/
theorem mem_AddTask_alloc (s : inMemoryTaskStore) (u title description : String) :
    ((s.AddTask u title description).2 =
      { ID := (s.AddTask u title description).2.ID, Title := title,
        Description := description, Completed := false }) ∧
    (match s.reusableIds with
     | i :: rest => (s.AddTask u title description).2.ID = i ∧
         (s.AddTask u title description).1.reusableIds = rest ∧
         (s.AddTask u title description).1.idSeq = s.idSeq
     | [] => (s.AddTask u title description).2.ID = s.idSeq + 1 ∧
         (s.AddTask u title description).1.reusableIds = [] ∧
         (s.AddTask u title description).1.idSeq = s.idSeq + 1) := by
  cases hr : s.reusableIds <;>
    simp [inMemoryTaskStore.AddTask, hr]

/-- `inMemoryTaskStore.RemoveTask` fails exactly when the user has no live
task at the id; a failure leaves the store untouched, and its error message
distinguishes the two miss cases. -/
theorem mem_RemoveTask_err (s : inMemoryTaskStore) (u : String) (id : Int) :
    ∀ e, (s.RemoveTask u id).2 = some e →
      (s.RemoveTask u id).1 = s ∧
      ((e = "task not found" ∧ mfind? s.tasks id = none) ∨
       (e = "task not found for user" ∧
         ∃ m, mfind? s.tasks id = some m ∧ mfind? m u = none)) := by
  intro e h
  cases hm : mfind? s.tasks id with
  | none =>
    have key : s.RemoveTask u id = (s, some "task not found") := by
      simp only [inMemoryTaskStore.RemoveTask, hm]
    rw [key] at h
    simp only [Option.some.injEq] at h
    exact ⟨by rw [key], Or.inl ⟨h.symm, rfl⟩⟩
  | some userMap =>
    cases hu : mfind? userMap u with
    | none =>
      have key : s.RemoveTask u id = (s, some "task not found for user") := by
        simp only [inMemoryTaskStore.RemoveTask, hm, hu]
      rw [key] at h
      simp only [Option.some.injEq] at h
      exact ⟨by rw [key], Or.inr ⟨h.symm, userMap, rfl, hu⟩⟩
    | some t =>
      have key : (s.RemoveTask u id).2 = none := by
        simp only [inMemoryTaskStore.RemoveTask, hm, hu]
      rw [key] at h
      cases h

theorem mem_RemoveTask_ok_iff (s : inMemoryTaskStore) (u : String) (id : Int) :
    (s.RemoveTask u id).2 = none ↔ memFind s id u ≠ none := by
  rw [memFind_eq]
  unfold inMemoryTaskStore.RemoveTask
  cases hm : mfind? s.tasks id with
  | none => simp [mfind?]
  | some userMap =>
    cases hu : mfind? userMap u with
    | none => simp [hu]
    | some t => simp [hu]

/-- Effect of a successful `inMemoryTaskStore.RemoveTask` on a store whose
task table is well formed: the (id, every-user) slot is cleared, nothing
else moves, and the id is reclaimed into the re-sorted free-list. -/
theorem mem_RemoveTask_ok (s : inMemoryTaskStore) (u : String) (id : Int)
    (hnd : (mkeys s.tasks).Nodup)
    (hsing : ∀ i m, mfind? s.tasks i = some m → ∃ u0 t0, m = [(u0, t0)])
    (hok : (s.RemoveTask u id).2 = none) :
    (∀ id' u', memFind (s.RemoveTask u id).1 id' u' =
        if id' = id then none else memFind s id' u') ∧
    (s.RemoveTask u id).1.reusableIds = sortInts (s.reusableIds ++ [id]) ∧
    (s.RemoveTask u id).1.idSeq = s.idSeq := by
  cases hm : mfind? s.tasks id with
  | none => simp [inMemoryTaskStore.RemoveTask, hm] at hok
  | some userMap =>
    cases hu : mfind? userMap u with
    | none => simp [inMemoryTaskStore.RemoveTask, hm, hu] at hok
    | some t =>
      obtain ⟨u0, t0, rfl⟩ := hsing id userMap hm
      have hu0 : u0 = u := by
        by_cases h' : u0 = u
        · exact h'
        · simp [mfind?, h'] at hu
      subst hu0
      have herase : merase [(u0, t0)] u0 = [] := by simp [merase]
      refine ⟨?_, ?_, ?_⟩
      · intro id' u'
        rw [memFind_eq, memFind_eq]
        simp only [inMemoryTaskStore.RemoveTask, hm, hu, herase, if_true]
        by_cases hid : id' = id
        · subst hid
          rw [mfind?_merase_self s.tasks id' hnd]
          simp [mfind?]
        · rw [mfind?_merase_ne s.tasks id id' hid]
          simp [hid]
      · simp [inMemoryTaskStore.RemoveTask, hm, hu, herase]
      · simp [inMemoryTaskStore.RemoveTask, hm, hu, herase]

theorem mem_CompleteTask_err (s : inMemoryTaskStore) (u : String) (id : Int) :
    ∀ e, (s.CompleteTask u id).2 = some e →
      (s.CompleteTask u id).1 = s ∧ e = "task not found for user" ∧
      memFind s id u = none := by
  intro e h
  rw [memFind_eq]
  cases hm : mfind? s.tasks id with
  | none =>
    have key : s.CompleteTask u id = (s, some "task not found for user") := by
      simp only [inMemoryTaskStore.CompleteTask, hm]
    rw [key] at h
    simp only [Option.some.injEq] at h
    exact ⟨by rw [key], h.symm, by simp [mfind?]⟩
  | some userTasks =>
    cases hu : mfind? userTasks u with
    | none =>
      have key : s.CompleteTask u id = (s, some "task not found for user") := by
        simp only [inMemoryTaskStore.CompleteTask, hm, hu]
      rw [key] at h
      simp only [Option.some.injEq] at h
      exact ⟨by rw [key], h.symm, by simpa using hu⟩
    | some t =>
      have key : (s.CompleteTask u id).2 = none := by
        simp only [inMemoryTaskStore.CompleteTask, hm, hu]
      rw [key] at h
      cases h

theorem mem_CompleteTask_ok_iff (s : inMemoryTaskStore) (u : String) (id : Int) :
    (s.CompleteTask u id).2 = none ↔ memFind s id u ≠ none := by
  rw [memFind_eq]
  unfold inMemoryTaskStore.CompleteTask
  cases hm : mfind? s.tasks id with
  | none => simp [mfind?]
  | some userTasks =>
    cases hu : mfind? userTasks u with
    | none => simp [hu]
    | some t => simp [hu]

/-- Effect of `inMemoryTaskStore.CompleteTask` on the live-task view: the
targeted slot (when live) gets its `Completed` flag set; every other slot
is untouched (and a miss touches nothing). -/
theorem memFind_CompleteTask (s : inMemoryTaskStore) (u : String) (id : Int)
    (id' : Int) (u' : String) :
    memFind (s.CompleteTask u id).1 id' u' =
      if id' = id ∧ u' = u
      then (memFind s id u).map (fun t => { t with Completed := true })
      else memFind s id' u' := by
  cases hm : mfind? s.tasks id with
  | none =>
    have hnone : memFind s id u = none := by rw [memFind_eq, hm]; simp [mfind?]
    simp only [inMemoryTaskStore.CompleteTask, hm]
    by_cases hc : id' = id ∧ u' = u
    · rw [if_pos hc, hnone, hc.1, hc.2, hnone]
      rfl
    · rw [if_neg hc]
  | some userTasks =>
    cases hu : mfind? userTasks u with
    | none =>
      have hnone : memFind s id u = none := by rw [memFind_eq, hm]; simpa using hu
      simp only [inMemoryTaskStore.CompleteTask, hm, hu]
      by_cases hc : id' = id ∧ u' = u
      · rw [if_pos hc, hnone, hc.1, hc.2, hnone]
        rfl
      · rw [if_neg hc]
    | some t =>
      have hsome : memFind s id u = some t := by rw [memFind_eq, hm]; simpa using hu
      have key : (s.CompleteTask u id).1 =
          { s with tasks := minsert s.tasks id (minsert userTasks u { t with Completed := true }) } := by
        simp only [inMemoryTaskStore.CompleteTask, hm, hu]
      have h2 := mfind?_insert2 s.tasks id u { t with Completed := true } id' u'
      rw [hm] at h2
      simp only [Option.getD_some] at h2
      rw [key, hsome, memFind_eq, memFind_eq]
      simp only at h2 ⊢
      rw [h2]
      by_cases hc : id' = id ∧ u' = u <;> simp [hc]

theorem mem_CompleteTask_frame (s : inMemoryTaskStore) (u : String) (id : Int) :
    (s.CompleteTask u id).1.idSeq = s.idSeq ∧
    (s.CompleteTask u id).1.reusableIds = s.reusableIds := by
  cases hm : mfind? s.tasks id with
  | none => simp [inMemoryTaskStore.CompleteTask, hm]
  | some userTasks =>
    cases hu : mfind? userTasks u with
    | none => simp [inMemoryTaskStore.CompleteTask, hm, hu]
    | some t => simp [inMemoryTaskStore.CompleteTask, hm, hu]

/-- Effect of `jsonTaskStore.AddTask` on the live-task view. -/
theorem jsonFind_AddTask (s : jsonTaskStore) (u title description : String)
    (u' : String) (id' : Int) :
    jsonFind (s.AddTask u title description).1 u' id' =
      if u' = u ∧ id' = (s.AddTask u title description).2.ID
      then some (s.AddTask u title description).2
      else jsonFind s u' id' := by
  rw [jsonFind_eq, jsonFind_eq]
  cases hr : s.reusableIds with
  | nil =>
    simpa [jsonTaskStore.AddTask, jsonTaskStore.saveToFile, hr] using
      mfind?_insert2 s.tasks u (s.idSeq + 1)
        { ID := s.idSeq + 1, Title := title, Description := description,
          Completed := false } u' id'
  | cons i rest =>
    simpa [jsonTaskStore.AddTask, jsonTaskStore.saveToFile, hr] using
      mfind?_insert2 s.tasks u i
        { ID := i, Title := title, Description := description,
          Completed := false } u' id'

/-- `jsonTaskStore.AddTask` returns the stored task verbatim, saves to file,
and moves its bookkeeping fields as the free-list dictates. -/
theorem json_AddTask_alloc (s : jsonTaskStore) (u title description : String) :
    ((s.AddTask u title description).2 =
      { ID := (s.AddTask u title description).2.ID, Title := title,
        Description := description, Completed := false }) ∧
    (s.AddTask u title description).1.file = (s.AddTask u title description).1.tasks ∧
    (match s.reusableIds with
     | i :: rest => (s.AddTask u title description).2.ID = i ∧
         (s.AddTask u title description).1.reusableIds = rest ∧
         (s.AddTask u title description).1.idSeq = s.idSeq
     | [] => (s.AddTask u title description).2.ID = s.idSeq + 1 ∧
         (s.AddTask u title description).1.reusableIds = [] ∧
         (s.AddTask u title description).1.idSeq = s.idSeq + 1) := by
  cases hr : s.reusableIds <;>
    simp [jsonTaskStore.AddTask, jsonTaskStore.saveToFile, hr]

/-- `jsonTaskStore.RemoveTask` failure cases: untouched store, and the error
message distinguishes an unknown user from a missing task id. -/
theorem json_RemoveTask_err (s : jsonTaskStore) (u : String) (id : Int) :
    ∀ e, (s.RemoveTask u id).2 = some e →
      (s.RemoveTask u id).1 = s ∧
      ((e = "user not found" ∧ mfind? s.tasks u = none) ∨
       (e = "task not found for user" ∧
         ∃ m, mfind? s.tasks u = some m ∧ mfind? m id = none)) := by
  intro e h
  cases hu : mfind? s.tasks u with
  | none =>
    have key : s.RemoveTask u id = (s, some "user not found") := by
      simp only [jsonTaskStore.RemoveTask, hu]
    rw [key] at h
    simp only [Option.some.injEq] at h
    exact ⟨by rw [key], Or.inl ⟨h.symm, rfl⟩⟩
  | some userTasks =>
    cases hid : mfind? userTasks id with
    | none =>
      have key : s.RemoveTask u id = (s, some "task not found for user") := by
        simp only [jsonTaskStore.RemoveTask, hu, hid]
      rw [key] at h
      simp only [Option.some.injEq] at h
      exact ⟨by rw [key], Or.inr ⟨h.symm, userTasks, rfl, hid⟩⟩
    | some t =>
      have key : (s.RemoveTask u id).2 = none := by
        simp only [jsonTaskStore.RemoveTask, hu, hid, jsonTaskStore.saveToFile]
      rw [key] at h
      cases h

theorem json_RemoveTask_ok_iff (s : jsonTaskStore) (u : String) (id : Int) :
    (s.RemoveTask u id).2 = none ↔ jsonFind s u id ≠ none := by
  rw [jsonFind_eq]
  cases hu : mfind? s.tasks u with
  | none => simp [jsonTaskStore.RemoveTask, hu, mfind?]
  | some userTasks =>
    cases hid : mfind? userTasks id with
    | none => simp [jsonTaskStore.RemoveTask, hu, hid]
    | some t => simp [jsonTaskStore.RemoveTask, hu, hid, jsonTaskStore.saveToFile]

/-- Effect of a successful `jsonTaskStore.RemoveTask` on a store with
well-formed maps: the (user, id) slot is cleared, nothing else moves, the id
is appended (unsorted) to the free-list, and the file mirrors the tasks. -/
theorem json_RemoveTask_ok (s : jsonTaskStore) (u : String) (id : Int)
    (hnd : (mkeys s.tasks).Nodup)
    (hmnd : ∀ m, mfind? s.tasks u = some m → (mkeys m).Nodup)
    (hok : (s.RemoveTask u id).2 = none) :
    (∀ u' id', jsonFind (s.RemoveTask u id).1 u' id' =
        if u' = u ∧ id' = id then none else jsonFind s u' id') ∧
    (s.RemoveTask u id).1.reusableIds = s.reusableIds ++ [id] ∧
    (s.RemoveTask u id).1.idSeq = s.idSeq ∧
    (s.RemoveTask u id).1.file = (s.RemoveTask u id).1.tasks := by
  cases hu : mfind? s.tasks u with
  | none => simp [jsonTaskStore.RemoveTask, hu] at hok
  | some userTasks =>
    cases hid : mfind? userTasks id with
    | none => simp [jsonTaskStore.RemoveTask, hu, hid] at hok
    | some t =>
      have hund : (mkeys userTasks).Nodup := hmnd userTasks hu
      by_cases hemp : merase userTasks id = []
      · have key : (s.RemoveTask u id).1 =
            { tasks := merase s.tasks u, idSeq := s.idSeq,
              reusableIds := s.reusableIds ++ [id], file := merase s.tasks u } := by
          simp only [jsonTaskStore.RemoveTask, hu, hid, hemp,
            jsonTaskStore.saveToFile, eq_self_iff_true, if_true]
        refine ⟨?_, by rw [key], by rw [key], by rw [key]⟩
        intro u' id'
        rw [key, jsonFind_eq, jsonFind_eq]
        by_cases hu' : u' = u
        · subst hu'
          rw [mfind?_merase_self s.tasks u' hnd]
          simp only [Option.getD_none]
          by_cases hid' : id' = id
          · simp [hid', mfind?]
          · have : mfind? userTasks id' = none := by
              rw [← mfind?_merase_ne userTasks id id' hid', hemp]
              rfl
            simp [hid', hu, this, mfind?]
        · rw [mfind?_merase_ne s.tasks u u' hu']
          simp [hu']
      · have key : (s.RemoveTask u id).1 =
            { tasks := minsert s.tasks u (merase userTasks id), idSeq := s.idSeq,
              reusableIds := s.reusableIds ++ [id],
              file := minsert s.tasks u (merase userTasks id) } := by
          simp only [jsonTaskStore.RemoveTask, hu, hid, jsonTaskStore.saveToFile,
            if_neg hemp]
        refine ⟨?_, by rw [key], by rw [key], by rw [key]⟩
        intro u' id'
        rw [key, jsonFind_eq, jsonFind_eq]
        by_cases hu' : u' = u
        · subst hu'
          rw [mfind?_minsert_self]
          simp only [Option.getD_some, hu]
          by_cases hid' : id' = id
          · simp [hid', mfind?_merase_self userTasks id hund]
          · simp [hid', mfind?_merase_ne userTasks id id' hid']
        · rw [mfind?_minsert_ne s.tasks u u' _ hu']
          simp [hu']

theorem json_CompleteTask_err (s : jsonTaskStore) (u : String) (id : Int) :
    ∀ e, (s.CompleteTask u id).2 = some e →
      (s.CompleteTask u id).1 = s ∧ e = "task not found for user" ∧
      jsonFind s u id = none := by
  intro e h
  rw [jsonFind_eq]
  cases hu : mfind? s.tasks u with
  | none =>
    have key : s.CompleteTask u id = (s, some "task not found for user") := by
      simp only [jsonTaskStore.CompleteTask, hu]
    rw [key] at h
    simp only [Option.some.injEq] at h
    exact ⟨by rw [key], h.symm, by simp [mfind?]⟩
  | some userTasks =>
    cases hid : mfind? userTasks id with
    | none =>
      have key : s.CompleteTask u id = (s, some "task not found for user") := by
        simp only [jsonTaskStore.CompleteTask, hu, hid]
      rw [key] at h
      simp only [Option.some.injEq] at h
      exact ⟨by rw [key], h.symm, by simpa using hid⟩
    | some t =>
      have key : (s.CompleteTask u id).2 = none := by
        simp only [jsonTaskStore.CompleteTask, hu, hid, jsonTaskStore.saveToFile]
      rw [key] at h
      cases h

theorem json_CompleteTask_ok_iff (s : jsonTaskStore) (u : String) (id : Int) :
    (s.CompleteTask u id).2 = none ↔ jsonFind s u id ≠ none := by
  rw [jsonFind_eq]
  cases hu : mfind? s.tasks u with
  | none => simp [jsonTaskStore.CompleteTask, hu, mfind?]
  | some userTasks =>
    cases hid : mfind? userTasks id with
    | none => simp [jsonTaskStore.CompleteTask, hu, hid]
    | some t => simp [jsonTaskStore.CompleteTask, hu, hid, jsonTaskStore.saveToFile]

/-- Effect of `jsonTaskStore.CompleteTask` on the live-task view. -/
theorem jsonFind_CompleteTask (s : jsonTaskStore) (u : String) (id : Int)
    (u' : String) (id' : Int) :
    jsonFind (s.CompleteTask u id).1 u' id' =
      if u' = u ∧ id' = id
      then (jsonFind s u id).map (fun t => { t with Completed := true })
      else jsonFind s u' id' := by
  cases hu : mfind? s.tasks u with
  | none =>
    have hnone : jsonFind s u id = none := by rw [jsonFind_eq, hu]; simp [mfind?]
    have key : (s.CompleteTask u id).1 = s := by
      simp only [jsonTaskStore.CompleteTask, hu]
    rw [key]
    by_cases hc : u' = u ∧ id' = id
    · rw [if_pos hc, hnone, hc.1, hc.2, hnone]
      rfl
    · rw [if_neg hc]
  | some userTasks =>
    cases hid : mfind? userTasks id with
    | none =>
      have hnone : jsonFind s u id = none := by rw [jsonFind_eq, hu]; simpa using hid
      have key : (s.CompleteTask u id).1 = s := by
        simp only [jsonTaskStore.CompleteTask, hu, hid]
      rw [key]
      by_cases hc : u' = u ∧ id' = id
      · rw [if_pos hc, hnone, hc.1, hc.2, hnone]
        rfl
      · rw [if_neg hc]
    | some t =>
      have hsome : jsonFind s u id = some t := by rw [jsonFind_eq, hu]; simpa using hid
      have key : (s.CompleteTask u id).1 =
          { tasks := minsert s.tasks u (minsert userTasks id { t with Completed := true })
            idSeq := s.idSeq
            reusableIds := s.reusableIds
            file := minsert s.tasks u (minsert userTasks id { t with Completed := true }) } := by
        simp only [jsonTaskStore.CompleteTask, hu, hid, jsonTaskStore.saveToFile]
      have h2 := mfind?_insert2 s.tasks u id { t with Completed := true } u' id'
      rw [hu] at h2
      simp only [Option.getD_some] at h2
      rw [key, hsome, jsonFind_eq, jsonFind_eq]
      simp only at h2 ⊢
      rw [h2]
      by_cases hc : u' = u ∧ id' = id <;> simp [hc]

theorem json_CompleteTask_frame (s : jsonTaskStore) (u : String) (id : Int) :
    (s.CompleteTask u id).1.idSeq = s.idSeq ∧
    (s.CompleteTask u id).1.reusableIds = s.reusableIds ∧
    ((s.CompleteTask u id).2 = none →
      (s.CompleteTask u id).1.file = (s.CompleteTask u id).1.tasks) := by
  cases hu : mfind? s.tasks u with
  | none => simp [jsonTaskStore.CompleteTask, hu]
  | some userTasks =>
    cases hid : mfind? userTasks id with
    | none => simp [jsonTaskStore.CompleteTask, hu, hid]
    | some t => simp [jsonTaskStore.CompleteTask, hu, hid, jsonTaskStore.saveToFile]

/-- No operation issued for one user ever touches another user's slot of the
file-backed store's task table. -/
theorem json_user_frame (s : jsonTaskStore) (op : Op) (u : String)
    (h : op.user ≠ u) : mfind? (execJson s op).tasks u = mfind? s.tasks u := by
  cases op with
  | add u0 title description =>
    have hne : u ≠ u0 := fun h' => h (by simp [Op.user, h'])
    cases hr : s.reusableIds <;>
      simp [execJson, jsonTaskStore.AddTask, jsonTaskStore.saveToFile, hr,
        mfind?_minsert_ne _ _ _ _ hne]
  | remove u0 id =>
    have hne : u ≠ u0 := fun h' => h (by simp [Op.user, h'])
    cases hu : mfind? s.tasks u0 with
    | none => simp [execJson, jsonTaskStore.RemoveTask, hu]
    | some userTasks =>
      cases hid : mfind? userTasks id with
      | none => simp [execJson, jsonTaskStore.RemoveTask, hu, hid]
      | some t =>
        by_cases hemp : merase userTasks id = []
        · simp [execJson, jsonTaskStore.RemoveTask, hu, hid, hemp,
            jsonTaskStore.saveToFile, mfind?_merase_ne _ _ _ hne]
        · simp [execJson, jsonTaskStore.RemoveTask, hu, hid, hemp,
            jsonTaskStore.saveToFile, mfind?_minsert_ne _ _ _ _ hne]
  | complete u0 id =>
    have hne : u ≠ u0 := fun h' => h (by simp [Op.user, h'])
    cases hu : mfind? s.tasks u0 with
    | none => simp [execJson, jsonTaskStore.CompleteTask, hu]
    | some userTasks =>
      cases hid : mfind? userTasks id with
      | none => simp [execJson, jsonTaskStore.CompleteTask, hu, hid]
      | some t =>
        simp [execJson, jsonTaskStore.CompleteTask, hu, hid,
          jsonTaskStore.saveToFile, mfind?_minsert_ne _ _ _ _ hne]
  | get u0 id => rfl
  | list u0 => rfl

/-! ## Invariants of reachable stores -/

/-- A `memFind` hit exposes its two levels of `mfind?` hits. -/
theorem memFind_ne_none_elim (s : inMemoryTaskStore) (id : Int) (u : String)
    (h : memFind s id u ≠ none) :
    ∃ m, mfind? s.tasks id = some m ∧ mfind? m u ≠ none := by
  rw [memFind_eq] at h
  cases hm : mfind? s.tasks id with
  | none => rw [hm] at h; simp [mfind?] at h
  | some m => exact ⟨m, rfl, by rw [hm] at h; simpa using h⟩

theorem jsonFind_ne_none_elim (s : jsonTaskStore) (u : String) (id : Int)
    (h : jsonFind s u id ≠ none) :
    ∃ m, mfind? s.tasks u = some m ∧ mfind? m id ≠ none := by
  rw [jsonFind_eq] at h
  cases hm : mfind? s.tasks u with
  | none => rw [hm] at h; simp [mfind?] at h
  | some m => exact ⟨m, rfl, by rw [hm] at h; simpa using h⟩

/-- Well-formedness invariant of reachable in-memory stores: the task table
has no duplicate ids, each id's user map is a singleton, live ids and
free-list ids are positive and bounded by the sequence counter, and the
free-list holds no live id and no duplicates. -/
structure MemWF (s : inMemoryTaskStore) : Prop where
  keysNodup : (mkeys s.tasks).Nodup
  singletons : ∀ i m, mfind? s.tasks i = some m → ∃ u t, m = [(u, t)]
  liveBounds : ∀ i m, mfind? s.tasks i = some m → 1 ≤ i ∧ i ≤ s.idSeq
  reusableFresh : ∀ i, i ∈ s.reusableIds → mfind? s.tasks i = none
  reusableNodup : s.reusableIds.Nodup
  reusableBounds : ∀ i, i ∈ s.reusableIds → 1 ≤ i ∧ i ≤ s.idSeq
  idSeqNonneg : 0 ≤ s.idSeq

theorem MemWF_localTaskStore : MemWF localTaskStore := by
  constructor <;> simp [localTaskStore, mfind?, mkeys]

/-- `AddTask` preserves well-formedness, and the id it allocates is fresh
(no user holds it before the call) and positive. -/
theorem MemWF_AddTask (s : inMemoryTaskStore) (u title description : String)
    (h : MemWF s) :
    MemWF (s.AddTask u title description).1 ∧
    mfind? s.tasks (s.AddTask u title description).2.ID = none ∧
    1 ≤ (s.AddTask u title description).2.ID := by
  cases hr : s.reusableIds with
  | cons i rest =>
    have hnd := h.reusableNodup
    rw [hr, List.nodup_cons] at hnd
    have hmem : i ∈ s.reusableIds := by rw [hr]; exact List.mem_cons_self i rest
    have hfr : mfind? s.tasks i = none := h.reusableFresh i hmem
    have hbounds := h.reusableBounds i hmem
    have hid : (s.AddTask u title description).2.ID = i := by
      simp [inMemoryTaskStore.AddTask, hr]
    have key : (s.AddTask u title description).1 =
        { tasks := minsert s.tasks i
            [(u, { ID := i, Title := title, Description := description, Completed := false })]
          idSeq := s.idSeq
          reusableIds := rest } := by
      simp [inMemoryTaskStore.AddTask, hr, hfr, minsert]
    rw [hid, key]
    refine ⟨?_, hfr, hbounds.1⟩
    constructor
    · exact mkeys_minsert_nodup _ _ _ h.keysNodup
    · intro i' m hm
      replace hm : mfind? (minsert s.tasks i
          [(u, { ID := i, Title := title, Description := description,
                 Completed := false })]) i' = some m := hm
      by_cases hii : i' = i
      · subst hii
        rw [mfind?_minsert_self] at hm
        exact ⟨u, _, (Option.some_inj.mp hm).symm⟩
      · rw [mfind?_minsert_ne _ _ _ _ hii] at hm
        exact h.singletons i' m hm
    · intro i' m hm
      replace hm : mfind? (minsert s.tasks i
          [(u, { ID := i, Title := title, Description := description,
                 Completed := false })]) i' = some m := hm
      by_cases hii : i' = i
      · subst hii; exact hbounds
      · rw [mfind?_minsert_ne _ _ _ _ hii] at hm
        exact h.liveBounds i' m hm
    · intro i' hi'
      replace hi' : i' ∈ rest := hi'
      have hne : i' ≠ i := fun he => hnd.1 (he ▸ hi')
      show mfind? (minsert s.tasks i _) i' = none
      rw [mfind?_minsert_ne _ _ _ _ hne]
      exact h.reusableFresh i' (by rw [hr]; exact List.mem_cons_of_mem i hi')
    · exact hnd.2
    · intro i' hi'
      exact h.reusableBounds i' (by rw [hr]; exact List.mem_cons_of_mem i hi')
    · exact h.idSeqNonneg
  | nil =>
    have hfr : mfind? s.tasks (s.idSeq + 1) = none := by
      cases hm : mfind? s.tasks (s.idSeq + 1) with
      | none => rfl
      | some m => exact absurd (h.liveBounds _ m hm).2 (by omega)
    have hid : (s.AddTask u title description).2.ID = s.idSeq + 1 := by
      simp [inMemoryTaskStore.AddTask, hr]
    have key : (s.AddTask u title description).1 =
        { tasks := minsert s.tasks (s.idSeq + 1)
            [(u, { ID := s.idSeq + 1, Title := title, Description := description,
                   Completed := false })]
          idSeq := s.idSeq + 1
          reusableIds := [] } := by
      simp [inMemoryTaskStore.AddTask, hr, hfr, minsert]
    rw [hid, key]
    have hpos : (1 : Int) ≤ s.idSeq + 1 := by have := h.idSeqNonneg; omega
    refine ⟨?_, hfr, hpos⟩
    constructor
    · exact mkeys_minsert_nodup _ _ _ h.keysNodup
    · intro i' m hm
      replace hm : mfind? (minsert s.tasks (s.idSeq + 1)
          [(u, { ID := s.idSeq + 1, Title := title, Description := description,
                 Completed := false })]) i' = some m := hm
      by_cases hii : i' = s.idSeq + 1
      · subst hii
        rw [mfind?_minsert_self] at hm
        exact ⟨u, _, (Option.some_inj.mp hm).symm⟩
      · rw [mfind?_minsert_ne _ _ _ _ hii] at hm
        exact h.singletons i' m hm
    · intro i' m hm
      replace hm : mfind? (minsert s.tasks (s.idSeq + 1)
          [(u, { ID := s.idSeq + 1, Title := title, Description := description,
                 Completed := false })]) i' = some m := hm
      by_cases hii : i' = s.idSeq + 1
      · subst hii
        exact ⟨hpos, le_refl _⟩
      · rw [mfind?_minsert_ne _ _ _ _ hii] at hm
        have := h.liveBounds i' m hm
        refine ⟨this.1, ?_⟩
        show i' ≤ s.idSeq + 1
        omega
    · intro i' hi'
      cases hi'
    · exact List.nodup_nil
    · intro i' hi'
      cases hi'
    · show (0 : Int) ≤ s.idSeq + 1
      have := h.idSeqNonneg
      omega

/-- `RemoveTask` preserves well-formedness. -/
theorem MemWF_RemoveTask (s : inMemoryTaskStore) (u : String) (id : Int)
    (h : MemWF s) : MemWF (s.RemoveTask u id).1 := by
  cases hres : (s.RemoveTask u id).2 with
  | some e => rw [(mem_RemoveTask_err s u id e hres).1]; exact h
  | none =>
    have hlive : memFind s id u ≠ none := (mem_RemoveTask_ok_iff s u id).mp hres
    obtain ⟨userMap, hm, humap⟩ := memFind_ne_none_elim s id u hlive
    cases hu : mfind? userMap u with
    | none => exact absurd hu humap
    | some t =>
      obtain ⟨u0, t0, hmap⟩ := h.singletons id userMap hm
      subst hmap
      have hu0 : u0 = u := by
        by_cases h' : u0 = u
        · exact h'
        · simp [mfind?, h'] at hu
      rw [hu0] at hm hu
      have herase : merase [(u, t0)] u = [] := by simp [merase]
      have key : (s.RemoveTask u id).1 =
          { tasks := merase s.tasks id
            idSeq := s.idSeq
            reusableIds := sortInts (s.reusableIds ++ [id]) } := by
        simp only [inMemoryTaskStore.RemoveTask, hm, hu, herase, eq_self_iff_true,
          if_true]
      have hidnotin : id ∉ s.reusableIds := by
        intro hin
        rw [h.reusableFresh id hin] at hm
        cases hm
      rw [key]
      constructor
      · exact mkeys_merase_nodup _ _ h.keysNodup
      · intro i' m' hm'
        replace hm' : mfind? (merase s.tasks id) i' = some m' := hm'
        by_cases hii : i' = id
        · subst hii
          rw [mfind?_merase_self _ _ h.keysNodup] at hm'
          cases hm'
        · rw [mfind?_merase_ne _ _ _ hii] at hm'
          exact h.singletons i' m' hm'
      · intro i' m' hm'
        replace hm' : mfind? (merase s.tasks id) i' = some m' := hm'
        by_cases hii : i' = id
        · subst hii
          rw [mfind?_merase_self _ _ h.keysNodup] at hm'
          cases hm'
        · rw [mfind?_merase_ne _ _ _ hii] at hm'
          exact h.liveBounds i' m' hm'
      · intro i' hi'
        replace hi' : i' ∈ sortInts (s.reusableIds ++ [id]) := hi'
        rw [mem_sortInts, List.mem_append, List.mem_singleton] at hi'
        show mfind? (merase s.tasks id) i' = none
        rcases hi' with hi' | hi'
        · have hne : i' ≠ id := by
            intro he
            exact hidnotin (he ▸ hi')
          rw [mfind?_merase_ne _ _ _ hne]
          exact h.reusableFresh i' hi'
        · subst hi'
          exact mfind?_merase_self _ _ h.keysNodup
      · apply sortInts_nodup
        rw [List.nodup_append]
        exact ⟨h.reusableNodup, List.nodup_singleton id,
          fun a ha hae => hidnotin ((List.mem_singleton.mp hae) ▸ ha)⟩
      · intro i' hi'
        replace hi' : i' ∈ sortInts (s.reusableIds ++ [id]) := hi'
        rw [mem_sortInts, List.mem_append, List.mem_singleton] at hi'
        rcases hi' with hi' | hi'
        · exact h.reusableBounds i' hi'
        · subst hi'
          exact h.liveBounds i' _ hm
      · exact h.idSeqNonneg

/-- `CompleteTask` preserves well-formedness. -/
theorem MemWF_CompleteTask (s : inMemoryTaskStore) (u : String) (id : Int)
    (h : MemWF s) : MemWF (s.CompleteTask u id).1 := by
  cases hm : mfind? s.tasks id with
  | none =>
    have key : (s.CompleteTask u id).1 = s := by
      simp only [inMemoryTaskStore.CompleteTask, hm]
    rw [key]; exact h
  | some userTasks =>
    cases hu : mfind? userTasks u with
    | none =>
      have key : (s.CompleteTask u id).1 = s := by
        simp only [inMemoryTaskStore.CompleteTask, hm, hu]
      rw [key]; exact h
    | some t =>
      obtain ⟨u0, t0, hmap⟩ := h.singletons id userTasks hm
      subst hmap
      have hu0 : u0 = u := by
        by_cases h' : u0 = u
        · exact h'
        · simp [mfind?, h'] at hu
      rw [hu0] at hm hu
      have hins : minsert [(u, t0)] u { t with Completed := true } =
          [(u, { t with Completed := true })] := by simp [minsert]
      have key : (s.CompleteTask u id).1 =
          { tasks := minsert s.tasks id [(u, { t with Completed := true })]
            idSeq := s.idSeq
            reusableIds := s.reusableIds } := by
        simp only [inMemoryTaskStore.CompleteTask, hm, hu, hins]
      rw [key]
      constructor
      · exact mkeys_minsert_nodup _ _ _ h.keysNodup
      · intro i' m' hm'
        replace hm' : mfind? (minsert s.tasks id
            [(u, { t with Completed := true })]) i' = some m' := hm'
        by_cases hii : i' = id
        · subst hii
          rw [mfind?_minsert_self] at hm'
          exact ⟨u, _, (Option.some_inj.mp hm').symm⟩
        · rw [mfind?_minsert_ne _ _ _ _ hii] at hm'
          exact h.singletons i' m' hm'
      · intro i' m' hm'
        replace hm' : mfind? (minsert s.tasks id
            [(u, { t with Completed := true })]) i' = some m' := hm'
        by_cases hii : i' = id
        · subst hii
          exact h.liveBounds i' _ hm
        · rw [mfind?_minsert_ne _ _ _ _ hii] at hm'
          exact h.liveBounds i' m' hm'
      · intro i' hi'
        replace hi' : i' ∈ s.reusableIds := hi'
        have hne : i' ≠ id := by
          intro he
          rw [← he, h.reusableFresh i' hi'] at hm
          cases hm
        show mfind? (minsert s.tasks id _) i' = none
        rw [mfind?_minsert_ne _ _ _ _ hne]
        exact h.reusableFresh i' hi'
      · exact h.reusableNodup
      · exact h.reusableBounds
      · exact h.idSeqNonneg

theorem MemWF_execMem (s : inMemoryTaskStore) (op : Op) (h : MemWF s) :
    MemWF (execMem s op) := by
  cases op with
  | add u title description => exact (MemWF_AddTask s u title description h).1
  | remove u id => exact MemWF_RemoveTask s u id h
  | complete u id => exact MemWF_CompleteTask s u id h
  | get u id => exact h
  | list u => exact h

theorem MemWF_foldl (ops : List Op) (s : inMemoryTaskStore) (h : MemWF s) :
    MemWF (ops.foldl execMem s) := by
  induction ops generalizing s with
  | nil => exact h
  | cons op rest ih => exact ih (execMem s op) (MemWF_execMem s op h)

theorem MemWF_runMem (ops : List Op) : MemWF (runMem ops) :=
  MemWF_foldl ops localTaskStore MemWF_localTaskStore

/-- Well-formedness invariant of reachable file-backed stores: maps have no
duplicate keys, user maps are non-empty, an id is owned by at most one user,
live and free ids are positive and bounded by the sequence counter, the
free-list holds no live id and no duplicates, and the file also has no
empty user map. -/
structure JsonWF (s : jsonTaskStore) : Prop where
  usersNodup : (mkeys s.tasks).Nodup
  mapsNodup : ∀ u m, mfind? s.tasks u = some m → (mkeys m).Nodup
  mapsNonempty : ∀ u m, mfind? s.tasks u = some m → m ≠ []
  uniqueOwner : ∀ u1 u2 i, jsonFind s u1 i ≠ none → jsonFind s u2 i ≠ none → u1 = u2
  liveBounds : ∀ u i, jsonFind s u i ≠ none → 1 ≤ i ∧ i ≤ s.idSeq
  reusableFresh : ∀ i, i ∈ s.reusableIds → ∀ u, jsonFind s u i = none
  reusableNodup : s.reusableIds.Nodup
  reusableBounds : ∀ i, i ∈ s.reusableIds → 1 ≤ i ∧ i ≤ s.idSeq
  idSeqNonneg : 0 ≤ s.idSeq
  fileOk : ∀ u m, mfind? s.file u = some m → m ≠ []

theorem JsonWF_newJSONTaskStore : JsonWF newJSONTaskStore := by
  constructor <;>
    simp [newJSONTaskStore, jsonTaskStore.loadFromFile, fileHighestID,
      jsonFind, mfind?, mkeys]

/-- `jsonTaskStore.AddTask` preserves well-formedness, and the id it
allocates is fresh for every user and positive. -/
theorem JsonWF_AddTask (s : jsonTaskStore) (u title description : String)
    (h : JsonWF s) :
    JsonWF (s.AddTask u title description).1 ∧
    (∀ u', jsonFind s u' (s.AddTask u title description).2.ID = none) ∧
    1 ≤ (s.AddTask u title description).2.ID := by
  have hund : (mkeys ((mfind? s.tasks u).getD [])).Nodup := by
    cases hfu : mfind? s.tasks u with
    | none => simp [mkeys]
    | some m => exact h.mapsNodup u m hfu
  cases hr : s.reusableIds with
  | cons i rest =>
    have hnd := h.reusableNodup
    rw [hr, List.nodup_cons] at hnd
    have hmem : i ∈ s.reusableIds := by rw [hr]; exact List.mem_cons_self i rest
    have hfresh : ∀ u', jsonFind s u' i = none := fun u' => h.reusableFresh i hmem u'
    have hbounds := h.reusableBounds i hmem
    have hid : (s.AddTask u title description).2.ID = i := by
      simp [jsonTaskStore.AddTask, hr]
    have key : (s.AddTask u title description).1 =
        { tasks := minsert s.tasks u (minsert ((mfind? s.tasks u).getD []) i
            { ID := i, Title := title, Description := description, Completed := false })
          idSeq := s.idSeq
          reusableIds := rest
          file := minsert s.tasks u (minsert ((mfind? s.tasks u).getD []) i
            { ID := i, Title := title, Description := description, Completed := false }) } := by
      simp [jsonTaskStore.AddTask, jsonTaskStore.saveToFile, hr]
    have hseq : (s.AddTask u title description).1.idSeq = s.idSeq := by rw [key]
    refine ⟨?_, by rw [hid]; exact hfresh, by rw [hid]; exact hbounds.1⟩
    constructor
    · rw [key]
      exact mkeys_minsert_nodup _ _ _ h.usersNodup
    · intro u' m' hm'
      rw [key] at hm'
      replace hm' : mfind? (minsert s.tasks u (minsert ((mfind? s.tasks u).getD []) i
          { ID := i, Title := title, Description := description,
            Completed := false })) u' = some m' := hm'
      by_cases hu' : u' = u
      · subst hu'
        rw [mfind?_minsert_self] at hm'
        rw [← Option.some_inj.mp hm']
        exact mkeys_minsert_nodup _ _ _ hund
      · rw [mfind?_minsert_ne _ _ _ _ hu'] at hm'
        exact h.mapsNodup u' m' hm'
    · intro u' m' hm'
      rw [key] at hm'
      replace hm' : mfind? (minsert s.tasks u (minsert ((mfind? s.tasks u).getD []) i
          { ID := i, Title := title, Description := description,
            Completed := false })) u' = some m' := hm'
      by_cases hu' : u' = u
      · subst hu'
        rw [mfind?_minsert_self] at hm'
        rw [← Option.some_inj.mp hm']
        exact minsert_ne_nil _ _ _
      · rw [mfind?_minsert_ne _ _ _ _ hu'] at hm'
        exact h.mapsNonempty u' m' hm'
    · intro u1 u2 i' hn1 hn2
      rw [jsonFind_AddTask, hid] at hn1 hn2
      by_cases hc1 : u1 = u ∧ i' = i
      · by_cases hc2 : u2 = u ∧ i' = i
        · rw [hc1.1, hc2.1]
        · rw [if_neg hc2] at hn2
          rw [hc1.2] at hn2
          exact absurd (hfresh u2) hn2
      · rw [if_neg hc1] at hn1
        by_cases hc2 : u2 = u ∧ i' = i
        · rw [hc2.2] at hn1
          exact absurd (hfresh u1) hn1
        · rw [if_neg hc2] at hn2
          exact h.uniqueOwner u1 u2 i' hn1 hn2
    · intro u' i' hn
      rw [jsonFind_AddTask, hid] at hn
      rw [hseq]
      by_cases hc : u' = u ∧ i' = i
      · rw [hc.2]
        exact hbounds
      · rw [if_neg hc] at hn
        exact h.liveBounds u' i' hn
    · intro i' hi' u'
      rw [key] at hi'
      replace hi' : i' ∈ rest := hi'
      have hne : i' ≠ i := fun he => hnd.1 (he ▸ hi')
      rw [jsonFind_AddTask, hid, if_neg (fun hc => hne hc.2)]
      exact h.reusableFresh i' (by rw [hr]; exact List.mem_cons_of_mem i hi') u'
    · rw [key]
      exact hnd.2
    · intro i' hi'
      rw [key] at hi'
      replace hi' : i' ∈ rest := hi'
      rw [hseq]
      exact h.reusableBounds i' (by rw [hr]; exact List.mem_cons_of_mem i hi')
    · rw [hseq]
      exact h.idSeqNonneg
    · intro u' m' hm'
      rw [key] at hm'
      replace hm' : mfind? (minsert s.tasks u (minsert ((mfind? s.tasks u).getD []) i
          { ID := i, Title := title, Description := description,
            Completed := false })) u' = some m' := hm'
      by_cases hu' : u' = u
      · subst hu'
        rw [mfind?_minsert_self] at hm'
        rw [← Option.some_inj.mp hm']
        exact minsert_ne_nil _ _ _
      · rw [mfind?_minsert_ne _ _ _ _ hu'] at hm'
        exact h.mapsNonempty u' m' hm'
  | nil =>
    have hfresh : ∀ u', jsonFind s u' (s.idSeq + 1) = none := by
      intro u'
      by_cases hn : jsonFind s u' (s.idSeq + 1) = none
      · exact hn
      · exact absurd (h.liveBounds u' _ hn).2 (by omega)
    have hid : (s.AddTask u title description).2.ID = s.idSeq + 1 := by
      simp [jsonTaskStore.AddTask, hr]
    have key : (s.AddTask u title description).1 =
        { tasks := minsert s.tasks u (minsert ((mfind? s.tasks u).getD []) (s.idSeq + 1)
            { ID := s.idSeq + 1, Title := title, Description := description, Completed := false })
          idSeq := s.idSeq + 1
          reusableIds := []
          file := minsert s.tasks u (minsert ((mfind? s.tasks u).getD []) (s.idSeq + 1)
            { ID := s.idSeq + 1, Title := title, Description := description, Completed := false }) } := by
      simp [jsonTaskStore.AddTask, jsonTaskStore.saveToFile, hr]
    have hseq : (s.AddTask u title description).1.idSeq = s.idSeq + 1 := by rw [key]
    have hpos : (1 : Int) ≤ s.idSeq + 1 := by have := h.idSeqNonneg; omega
    refine ⟨?_, by rw [hid]; exact hfresh, by rw [hid]; exact hpos⟩
    constructor
    · rw [key]
      exact mkeys_minsert_nodup _ _ _ h.usersNodup
    · intro u' m' hm'
      rw [key] at hm'
      replace hm' : mfind? (minsert s.tasks u (minsert ((mfind? s.tasks u).getD []) (s.idSeq + 1)
          { ID := s.idSeq + 1, Title := title, Description := description,
            Completed := false })) u' = some m' := hm'
      by_cases hu' : u' = u
      · subst hu'
        rw [mfind?_minsert_self] at hm'
        rw [← Option.some_inj.mp hm']
        exact mkeys_minsert_nodup _ _ _ hund
      · rw [mfind?_minsert_ne _ _ _ _ hu'] at hm'
        exact h.mapsNodup u' m' hm'
    · intro u' m' hm'
      rw [key] at hm'
      replace hm' : mfind? (minsert s.tasks u (minsert ((mfind? s.tasks u).getD []) (s.idSeq + 1)
          { ID := s.idSeq + 1, Title := title, Description := description,
            Completed := false })) u' = some m' := hm'
      by_cases hu' : u' = u
      · subst hu'
        rw [mfind?_minsert_self] at hm'
        rw [← Option.some_inj.mp hm']
        exact minsert_ne_nil _ _ _
      · rw [mfind?_minsert_ne _ _ _ _ hu'] at hm'
        exact h.mapsNonempty u' m' hm'
    · intro u1 u2 i' hn1 hn2
      rw [jsonFind_AddTask, hid] at hn1 hn2
      by_cases hc1 : u1 = u ∧ i' = s.idSeq + 1
      · by_cases hc2 : u2 = u ∧ i' = s.idSeq + 1
        · rw [hc1.1, hc2.1]
        · rw [if_neg hc2] at hn2
          rw [hc1.2] at hn2
          exact absurd (hfresh u2) hn2
      · rw [if_neg hc1] at hn1
        by_cases hc2 : u2 = u ∧ i' = s.idSeq + 1
        · rw [hc2.2] at hn1
          exact absurd (hfresh u1) hn1
        · rw [if_neg hc2] at hn2
          exact h.uniqueOwner u1 u2 i' hn1 hn2
    · intro u' i' hn
      rw [jsonFind_AddTask, hid] at hn
      rw [hseq]
      by_cases hc : u' = u ∧ i' = s.idSeq + 1
      · rw [hc.2]
        omega
      · rw [if_neg hc] at hn
        have := h.liveBounds u' i' hn
        omega
    · intro i' hi' u'
      rw [key] at hi'
      cases hi'
    · rw [key]
      exact List.nodup_nil
    · intro i' hi'
      rw [key] at hi'
      cases hi'
    · rw [hseq]
      have := h.idSeqNonneg
      omega
    · intro u' m' hm'
      rw [key] at hm'
      replace hm' : mfind? (minsert s.tasks u (minsert ((mfind? s.tasks u).getD []) (s.idSeq + 1)
          { ID := s.idSeq + 1, Title := title, Description := description,
            Completed := false })) u' = some m' := hm'
      by_cases hu' : u' = u
      · subst hu'
        rw [mfind?_minsert_self] at hm'
        rw [← Option.some_inj.mp hm']
        exact minsert_ne_nil _ _ _
      · rw [mfind?_minsert_ne _ _ _ _ hu'] at hm'
        exact h.mapsNonempty u' m' hm'

/-- `jsonTaskStore.RemoveTask` preserves well-formedness. -/
theorem JsonWF_RemoveTask (s : jsonTaskStore) (u : String) (id : Int)
    (h : JsonWF s) : JsonWF (s.RemoveTask u id).1 := by
  cases hres : (s.RemoveTask u id).2 with
  | some e => rw [(json_RemoveTask_err s u id e hres).1]; exact h
  | none =>
    have hlive : jsonFind s u id ≠ none := (json_RemoveTask_ok_iff s u id).mp hres
    obtain ⟨userTasks, hu, hid0⟩ := jsonFind_ne_none_elim s u id hlive
    obtain ⟨hview, hreu, hseq, hfile⟩ :=
      json_RemoveTask_ok s u id h.usersNodup (fun m hm => h.mapsNodup u m hm) hres
    cases hid1 : mfind? userTasks id with
    | none => exact absurd hid1 hid0
    | some t =>
      have hkey : (s.RemoveTask u id).1.tasks = merase s.tasks u ∨
          ((s.RemoveTask u id).1.tasks = minsert s.tasks u (merase userTasks id) ∧
            merase userTasks id ≠ []) := by
        by_cases hemp : merase userTasks id = []
        · left
          simp only [jsonTaskStore.RemoveTask, hu, hid1, hemp,
            jsonTaskStore.saveToFile, eq_self_iff_true, if_true]
        · right
          refine ⟨?_, hemp⟩
          simp only [jsonTaskStore.RemoveTask, hu, hid1,
            jsonTaskStore.saveToFile, if_neg hemp]
      have hUsersNodup : (mkeys (s.RemoveTask u id).1.tasks).Nodup := by
        rcases hkey with hk | hk
        · rw [hk]; exact mkeys_merase_nodup _ _ h.usersNodup
        · rw [hk.1]; exact mkeys_minsert_nodup _ _ _ h.usersNodup
      have hMapsNodup : ∀ u' m', mfind? (s.RemoveTask u id).1.tasks u' = some m' →
          (mkeys m').Nodup := by
        intro u' m' hm'
        rcases hkey with hk | hk
        · rw [hk] at hm'
          by_cases hu' : u' = u
          · subst hu'
            rw [mfind?_merase_self _ _ h.usersNodup] at hm'
            cases hm'
          · rw [mfind?_merase_ne _ _ _ hu'] at hm'
            exact h.mapsNodup u' m' hm'
        · rw [hk.1] at hm'
          by_cases hu' : u' = u
          · subst hu'
            rw [mfind?_minsert_self] at hm'
            rw [← Option.some_inj.mp hm']
            exact mkeys_merase_nodup _ _ (h.mapsNodup u' userTasks hu)
          · rw [mfind?_minsert_ne _ _ _ _ hu'] at hm'
            exact h.mapsNodup u' m' hm'
      have hMapsNe : ∀ u' m', mfind? (s.RemoveTask u id).1.tasks u' = some m' →
          m' ≠ [] := by
        intro u' m' hm'
        rcases hkey with hk | hk
        · rw [hk] at hm'
          by_cases hu' : u' = u
          · subst hu'
            rw [mfind?_merase_self _ _ h.usersNodup] at hm'
            cases hm'
          · rw [mfind?_merase_ne _ _ _ hu'] at hm'
            exact h.mapsNonempty u' m' hm'
        · rw [hk.1] at hm'
          by_cases hu' : u' = u
          · subst hu'
            rw [mfind?_minsert_self] at hm'
            rw [← Option.some_inj.mp hm']
            exact hk.2
          · rw [mfind?_minsert_ne _ _ _ _ hu'] at hm'
            exact h.mapsNonempty u' m' hm'
      have hidnotin : id ∉ s.reusableIds := by
        intro hin
        exact hlive (h.reusableFresh id hin u)
      constructor
      · exact hUsersNodup
      · exact hMapsNodup
      · exact hMapsNe
      · intro u1 u2 i' hn1 hn2
        rw [hview u1 i'] at hn1
        rw [hview u2 i'] at hn2
        by_cases hc1 : u1 = u ∧ i' = id
        · rw [if_pos hc1] at hn1
          exact absurd rfl hn1
        · rw [if_neg hc1] at hn1
          by_cases hc2 : u2 = u ∧ i' = id
          · rw [if_pos hc2] at hn2
            exact absurd rfl hn2
          · rw [if_neg hc2] at hn2
            exact h.uniqueOwner u1 u2 i' hn1 hn2
      · intro u' i' hn
        rw [hview u' i'] at hn
        rw [hseq]
        by_cases hc : u' = u ∧ i' = id
        · rw [if_pos hc] at hn
          exact absurd rfl hn
        · rw [if_neg hc] at hn
          exact h.liveBounds u' i' hn
      · intro i' hi' u'
        rw [hreu, List.mem_append, List.mem_singleton] at hi'
        rw [hview u' i']
        by_cases hc : u' = u ∧ i' = id
        · rw [if_pos hc]
        · rw [if_neg hc]
          rcases hi' with hi' | hi'
          · exact h.reusableFresh i' hi' u'
          · subst hi'
            by_cases hn : jsonFind s u' i' = none
            · exact hn
            · exact absurd (h.uniqueOwner u' u i' hn hlive) (fun he => hc ⟨he, rfl⟩)
      · rw [hreu]
        rw [List.nodup_append]
        exact ⟨h.reusableNodup, List.nodup_singleton id,
          fun a ha hae => hidnotin ((List.mem_singleton.mp hae) ▸ ha)⟩
      · intro i' hi'
        rw [hreu, List.mem_append, List.mem_singleton] at hi'
        rw [hseq]
        rcases hi' with hi' | hi'
        · exact h.reusableBounds i' hi'
        · subst hi'
          exact h.liveBounds u i' hlive
      · rw [hseq]
        exact h.idSeqNonneg
      · intro u' m' hm'
        rw [hfile] at hm'
        exact hMapsNe u' m' hm'

/-- `jsonTaskStore.CompleteTask` preserves well-formedness. -/
theorem JsonWF_CompleteTask (s : jsonTaskStore) (u : String) (id : Int)
    (h : JsonWF s) : JsonWF (s.CompleteTask u id).1 := by
  cases hres : (s.CompleteTask u id).2 with
  | some e => rw [(json_CompleteTask_err s u id e hres).1]; exact h
  | none =>
    have hlive : jsonFind s u id ≠ none := (json_CompleteTask_ok_iff s u id).mp hres
    obtain ⟨userTasks, hu, hid0⟩ := jsonFind_ne_none_elim s u id hlive
    cases hid1 : mfind? userTasks id with
    | none => exact absurd hid1 hid0
    | some t =>
      have hkey : (s.CompleteTask u id).1.tasks =
          minsert s.tasks u (minsert userTasks id { t with Completed := true }) := by
        simp only [jsonTaskStore.CompleteTask, hu, hid1, jsonTaskStore.saveToFile]
      have hfilekey : (s.CompleteTask u id).1.file = (s.CompleteTask u id).1.tasks :=
        (json_CompleteTask_frame s u id).2.2 hres
      obtain ⟨hseq, hreu, _⟩ := json_CompleteTask_frame s u id
      have hview := jsonFind_CompleteTask s u id
      have hMapsNe : ∀ u' m', mfind? (s.CompleteTask u id).1.tasks u' = some m' →
          m' ≠ [] := by
        intro u' m' hm'
        rw [hkey] at hm'
        by_cases hu' : u' = u
        · subst hu'
          rw [mfind?_minsert_self] at hm'
          rw [← Option.some_inj.mp hm']
          exact minsert_ne_nil _ _ _
        · rw [mfind?_minsert_ne _ _ _ _ hu'] at hm'
          exact h.mapsNonempty u' m' hm'
      constructor
      · rw [hkey]
        exact mkeys_minsert_nodup _ _ _ h.usersNodup
      · intro u' m' hm'
        rw [hkey] at hm'
        by_cases hu' : u' = u
        · subst hu'
          rw [mfind?_minsert_self] at hm'
          rw [← Option.some_inj.mp hm']
          exact mkeys_minsert_nodup _ _ _ (h.mapsNodup u' userTasks hu)
        · rw [mfind?_minsert_ne _ _ _ _ hu'] at hm'
          exact h.mapsNodup u' m' hm'
      · exact hMapsNe
      · intro u1 u2 i' hn1 hn2
        rw [hview u1 i'] at hn1
        rw [hview u2 i'] at hn2
        by_cases hc1 : u1 = u ∧ i' = id
        · by_cases hc2 : u2 = u ∧ i' = id
          · rw [hc1.1, hc2.1]
          · rw [if_neg hc2] at hn2
            rw [hc1.2] at hn2
            by_cases hn : jsonFind s u2 id = none
            · exact absurd hn hn2
            · exact absurd (h.uniqueOwner u2 u id hn hlive).symm
                (fun he => hc2 ⟨he.symm, hc1.2⟩)
        · rw [if_neg hc1] at hn1
          by_cases hc2 : u2 = u ∧ i' = id
          · rw [hc2.2] at hn1
            by_cases hn : jsonFind s u1 id = none
            · exact absurd hn hn1
            · exact absurd (h.uniqueOwner u1 u id hn hlive)
                (fun he => hc1 ⟨he, hc2.2⟩)
          · rw [if_neg hc2] at hn2
            exact h.uniqueOwner u1 u2 i' hn1 hn2
      · intro u' i' hn
        rw [hview u' i'] at hn
        rw [hseq]
        by_cases hc : u' = u ∧ i' = id
        · rw [hc.2]
          exact h.liveBounds u id hlive
        · rw [if_neg hc] at hn
          exact h.liveBounds u' i' hn
      · intro i' hi' u'
        rw [hreu] at hi'
        rw [hview u' i']
        by_cases hc : u' = u ∧ i' = id
        · exact absurd (hc.2 ▸ h.reusableFresh i' hi' u) hlive
        · rw [if_neg hc]
          exact h.reusableFresh i' hi' u'
      · rw [hreu]
        exact h.reusableNodup
      · intro i' hi'
        rw [hreu] at hi'
        rw [hseq]
        exact h.reusableBounds i' hi'
      · rw [hseq]
        exact h.idSeqNonneg
      · intro u' m' hm'
        rw [hfilekey] at hm'
        exact hMapsNe u' m' hm'

theorem JsonWF_execJson (s : jsonTaskStore) (op : Op) (h : JsonWF s) :
    JsonWF (execJson s op) := by
  cases op with
  | add u title description => exact (JsonWF_AddTask s u title description h).1
  | remove u id => exact JsonWF_RemoveTask s u id h
  | complete u id => exact JsonWF_CompleteTask s u id h
  | get u id => exact h
  | list u => exact h

theorem JsonWF_foldl (ops : List Op) (s : jsonTaskStore) (h : JsonWF s) :
    JsonWF (ops.foldl execJson s) := by
  induction ops generalizing s with
  | nil => exact h
  | cons op rest ih => exact ih (execJson s op) (JsonWF_execJson s op h)

theorem JsonWF_runJson (ops : List Op) : JsonWF (runJson ops) :=
  JsonWF_foldl ops newJSONTaskStore JsonWF_newJSONTaskStore

/-! ## Further helper lemmas for the claims -/

theorem mem_GetTask_err (s : inMemoryTaskStore) (u : String) (id : Int) :
    ∀ e, s.GetTask u id = .error e → e = "task not found for user" := by
  intro e h
  cases hm : mfind? s.tasks id with
  | none =>
    have key : s.GetTask u id = .error "task not found for user" := by
      simp only [inMemoryTaskStore.GetTask, hm]
    rw [key] at h
    exact (Except.error.inj h).symm
  | some userTasks =>
    cases hu : mfind? userTasks u with
    | none =>
      have key : s.GetTask u id = .error "task not found for user" := by
        simp only [inMemoryTaskStore.GetTask, hm, hu]
      rw [key] at h
      exact (Except.error.inj h).symm
    | some t =>
      have key : s.GetTask u id = .ok t := by
        simp only [inMemoryTaskStore.GetTask, hm, hu]
      rw [key] at h
      cases h

theorem json_GetTask_err (s : jsonTaskStore) (u : String) (id : Int) :
    ∀ e, s.GetTask u id = .error e → e = "task not found for user" := by
  intro e h
  cases hu : mfind? s.tasks u with
  | none =>
    have key : s.GetTask u id = .error "task not found for user" := by
      simp only [jsonTaskStore.GetTask, hu]
    rw [key] at h
    exact (Except.error.inj h).symm
  | some userTasks =>
    cases hid : mfind? userTasks id with
    | none =>
      have key : s.GetTask u id = .error "task not found for user" := by
        simp only [jsonTaskStore.GetTask, hu, hid]
      rw [key] at h
      exact (Except.error.inj h).symm
    | some t =>
      have key : s.GetTask u id = .ok t := by
        simp only [jsonTaskStore.GetTask, hu, hid]
      rw [key] at h
      cases h

/-- A successful `jsonTaskStore.RemoveTask` saves the current collection. -/
theorem json_RemoveTask_file (s : jsonTaskStore) (u : String) (id : Int)
    (hok : (s.RemoveTask u id).2 = none) :
    (s.RemoveTask u id).1.file = (s.RemoveTask u id).1.tasks := by
  cases hu : mfind? s.tasks u with
  | none => simp [jsonTaskStore.RemoveTask, hu] at hok
  | some userTasks =>
    cases hid : mfind? userTasks id with
    | none => simp [jsonTaskStore.RemoveTask, hu, hid] at hok
    | some t =>
      by_cases hemp : merase userTasks id = []
      · simp only [jsonTaskStore.RemoveTask, hu, hid, hemp,
          jsonTaskStore.saveToFile, eq_self_iff_true, if_true]
      · simp only [jsonTaskStore.RemoveTask, hu, hid,
          jsonTaskStore.saveToFile, if_neg hemp]

/-- No operation issued for one user ever changes another user's live-task
view of the in-memory store. -/
theorem memFind_exec_frame (s : inMemoryTaskStore) (op : Op) (u : String)
    (hwf : MemWF s) (hne : op.user ≠ u) :
    ∀ id, memFind (execMem s op) id u = memFind s id u := by
  intro id
  cases op with
  | add u0 title description =>
    have hne0 : u0 ≠ u := hne
    show memFind (s.AddTask u0 title description).1 id u = memFind s id u
    rw [memFind_AddTask]
    exact if_neg (fun hc => hne0 hc.2.symm)
  | remove u0 id0 =>
    have hne0 : u0 ≠ u := hne
    show memFind (s.RemoveTask u0 id0).1 id u = memFind s id u
    cases hres : (s.RemoveTask u0 id0).2 with
    | some e => rw [(mem_RemoveTask_err s u0 id0 e hres).1]
    | none =>
      obtain ⟨hview, _, _⟩ :=
        mem_RemoveTask_ok s u0 id0 hwf.keysNodup hwf.singletons hres
      rw [hview id u]
      by_cases hid : id = id0
      · subst hid
        rw [if_pos rfl]
        have hlive : memFind s id u0 ≠ none :=
          (mem_RemoveTask_ok_iff s u0 id).mp hres
        obtain ⟨m, hmfind, hmu0⟩ := memFind_ne_none_elim s id u0 hlive
        obtain ⟨ua, ta, hmap⟩ := hwf.singletons id m hmfind
        subst hmap
        have hua : ua = u0 := by
          by_cases h' : ua = u0
          · exact h'
          · simp [mfind?, h'] at hmu0
        rw [memFind_eq, hmfind]
        have hneu : ua ≠ u := by rw [hua]; exact hne0
        simp [mfind?, hneu]
      · rw [if_neg hid]
  | complete u0 id0 =>
    have hne0 : u0 ≠ u := hne
    show memFind (s.CompleteTask u0 id0).1 id u = memFind s id u
    rw [memFind_CompleteTask]
    exact if_neg (fun hc => hne0 hc.2.symm)
  | get u0 id0 => rfl
  | list u0 => rfl

/-- A user absent from every slot of a well-formed task table gets the empty
list from `ListTasks`. -/
theorem mem_listTasks_nil (s : inMemoryTaskStore) (u : String)
    (hnd : (mkeys s.tasks).Nodup) (h : ∀ id, memFind s id u = none) :
    s.ListTasks u = [] := by
  unfold inMemoryTaskStore.ListTasks
  rw [List.filterMap_eq_nil_iff]
  intro p hp
  have hfind := mfind?_of_mem s.tasks p hnd hp
  have := h p.1
  rw [memFind_eq, hfind] at this
  simpa using this

theorem mem_foldl_none (u : String) (ops : List Op) (s : inMemoryTaskStore)
    (hwf : MemWF s) (hs : ∀ id, memFind s id u = none)
    (hops : ∀ op ∈ ops, op.user ≠ u) :
    ∀ id, memFind (ops.foldl execMem s) id u = none := by
  induction ops generalizing s with
  | nil => exact hs
  | cons op rest ih =>
    intro id
    refine ih (execMem s op) (MemWF_execMem s op hwf) ?_
      (fun op' hop' => hops op' (List.mem_cons_of_mem op hop')) id
    intro id'
    rw [memFind_exec_frame s op u hwf (hops op (List.mem_cons_self op rest))]
    exact hs id'

theorem json_foldl_none (u : String) (ops : List Op) (s : jsonTaskStore)
    (hs : mfind? s.tasks u = none)
    (hops : ∀ op ∈ ops, op.user ≠ u) :
    mfind? (ops.foldl execJson s).tasks u = none := by
  induction ops generalizing s with
  | nil => exact hs
  | cons op rest ih =>
    refine ih (execJson s op) ?_
      (fun op' hop' => hops op' (List.mem_cons_of_mem op hop'))
    rw [json_user_frame s op u (hops op (List.mem_cons_self op rest))]
    exact hs

/-! ## Lemmas on the `loadFromFile` highest-id scan -/

theorem foldMax_ge (l : List (Int × Task)) (a : Int) :
    a ≤ l.foldl (fun h2 q => if q.1 > h2 then q.1 else h2) a := by
  induction l generalizing a with
  | nil => exact le_refl a
  | cons q rest ih =>
    refine le_trans ?_ (ih (if q.1 > a then q.1 else a))
    by_cases h : q.1 > a
    · simp [h]
      omega
    · simp [h]

theorem foldMax_ub (l : List (Int × Task)) (a : Int) :
    ∀ q ∈ l, q.1 ≤ l.foldl (fun h2 q => if q.1 > h2 then q.1 else h2) a := by
  induction l generalizing a with
  | nil => intro q hq; cases hq
  | cons p rest ih =>
    intro q hq
    rcases List.mem_cons.mp hq with hq | hq
    · subst hq
      refine le_trans ?_ (foldMax_ge rest (if q.1 > a then q.1 else a))
      by_cases h : q.1 > a
      · simp [h]
      · simp [h]
        omega
    · exact ih (if p.1 > a then p.1 else a) q hq

theorem foldMax_cases (l : List (Int × Task)) (a : Int) :
    l.foldl (fun h2 q => if q.1 > h2 then q.1 else h2) a = a ∨
      ∃ q ∈ l, l.foldl (fun h2 q => if q.1 > h2 then q.1 else h2) a = q.1 := by
  induction l generalizing a with
  | nil => exact Or.inl rfl
  | cons p rest ih =>
    rcases ih (if p.1 > a then p.1 else a) with h | h
    · by_cases hp : p.1 > a
      · right
        refine ⟨p, List.mem_cons_self p rest, ?_⟩
        simpa [hp] using h
      · left
        simpa [hp] using h
    · obtain ⟨q, hq, hfold⟩ := h
      exact Or.inr ⟨q, List.mem_cons_of_mem p hq, hfold⟩

theorem outerMax_ge (file : List (String × List (Int × Task))) (a : Int) :
    a ≤ file.foldl
      (fun h p => p.2.foldl (fun h2 q => if q.1 > h2 then q.1 else h2) h) a := by
  induction file generalizing a with
  | nil => exact le_refl a
  | cons p rest ih =>
    exact le_trans (foldMax_ge p.2 a) (ih _)

theorem outerMax_ub (file : List (String × List (Int × Task))) (a : Int) :
    ∀ p ∈ file, ∀ q ∈ p.2, q.1 ≤ file.foldl
      (fun h p => p.2.foldl (fun h2 q => if q.1 > h2 then q.1 else h2) h) a := by
  induction file generalizing a with
  | nil => intro p hp; cases hp
  | cons r rest ih =>
    intro p hp q hq
    rcases List.mem_cons.mp hp with hp | hp
    · subst hp
      exact le_trans (foldMax_ub p.2 a q hq) (outerMax_ge rest _)
    · exact ih _ p hp q hq

theorem outerMax_cases (file : List (String × List (Int × Task))) (a : Int) :
    file.foldl
        (fun h p => p.2.foldl (fun h2 q => if q.1 > h2 then q.1 else h2) h) a = a ∨
      ∃ p ∈ file, ∃ q ∈ p.2, file.foldl
        (fun h p => p.2.foldl (fun h2 q => if q.1 > h2 then q.1 else h2) h) a = q.1 := by
  induction file generalizing a with
  | nil => exact Or.inl rfl
  | cons r rest ih =>
    rcases ih (r.2.foldl (fun h2 q => if q.1 > h2 then q.1 else h2) a) with h | h
    · rcases foldMax_cases r.2 a with h' | h'
      · exact Or.inl (by rw [List.foldl_cons, h, h'])
      · obtain ⟨q, hq, hfold⟩ := h'
        exact Or.inr ⟨r, List.mem_cons_self r rest, q, hq,
          by rw [List.foldl_cons, h, hfold]⟩
    · obtain ⟨p, hp, q, hq, hfold⟩ := h
      exact Or.inr ⟨p, List.mem_cons_of_mem r hp, q, hq,
        by rw [List.foldl_cons]; exact hfold⟩

theorem fileHighestID_nonneg (file : List (String × List (Int × Task))) :
    0 ≤ fileHighestID file := outerMax_ge file 0

theorem fileHighestID_ub (file : List (String × List (Int × Task))) :
    ∀ p ∈ file, ∀ q ∈ p.2, q.1 ≤ fileHighestID file := outerMax_ub file 0

theorem fileHighestID_cases (file : List (String × List (Int × Task))) :
    fileHighestID file = 0 ∨
      ∃ p ∈ file, ∃ q ∈ p.2, fileHighestID file = q.1 := outerMax_cases file 0

theorem fileUsed_iff (file : List (String × List (Int × Task))) (id : Int) :
    fileUsed file id = true ↔ ∃ p ∈ file, ∃ q ∈ p.2, q.1 = id := by
  simp [fileUsed, List.any_eq_true, beq_iff_eq]

/-! ## The claims -/

/-- C1: the claim says the free-list is kept sorted ascending after each
reclaim and that the next `AddTask` (either backend) allocates its smallest
member.  The file backend violates this: `jsonTaskStore.RemoveTask` appends
the reclaimed id without re-sorting (unlike `inMemoryTaskStore.RemoveTask`,
which calls `sort.Ints`).  After adding ids 1,2,3 and removing 2 then 1, the
json free-list is `[2, 1]` — not sorted — and the next `AddTask` returns 2
even though 1 is free; the in-memory backend on the same history keeps
`[1, 2]` and returns 1 as the claim requires. -/
theorem C1_json_free_list_unsorted :
    (runJson [Op.add "u" "t1" "", Op.add "u" "t2" "", Op.add "u" "t3" "",
      Op.remove "u" 2, Op.remove "u" 1]).reusableIds = [2, 1] ∧
    ¬ List.Sorted (· ≤ ·) (runJson [Op.add "u" "t1" "", Op.add "u" "t2" "",
      Op.add "u" "t3" "", Op.remove "u" 2, Op.remove "u" 1]).reusableIds ∧
    ((runJson [Op.add "u" "t1" "", Op.add "u" "t2" "", Op.add "u" "t3" "",
      Op.remove "u" 2, Op.remove "u" 1]).AddTask "u" "t4" "").2.ID = 2 ∧
    (runMem [Op.add "u" "t1" "", Op.add "u" "t2" "", Op.add "u" "t3" "",
      Op.remove "u" 2, Op.remove "u" 1]).reusableIds = [1, 2] ∧
    ((runMem [Op.add "u" "t1" "", Op.add "u" "t2" "", Op.add "u" "t3" "",
      Op.remove "u" 2, Op.remove "u" 1]).AddTask "u" "t4" "").2.ID = 1 := by
  exact ⟨by decide, by decide, by decide, by decide, by decide⟩

/-- C2: starting from an empty store (either backend), after any call
sequence no two live tasks share an identifier — an id is held by at most
one user — and the identifier the next `AddTask` would allocate is not held
by any live task. -/
theorem C2_identifier_uniqueness (ops : List Op) :
    (∀ id u1 u2, memFind (runMem ops) id u1 ≠ none →
        memFind (runMem ops) id u2 ≠ none → u1 = u2) ∧
    (∀ id u1 u2, jsonFind (runJson ops) u1 id ≠ none →
        jsonFind (runJson ops) u2 id ≠ none → u1 = u2) ∧
    (∀ u title description u',
        memFind (runMem ops) ((runMem ops).AddTask u title description).2.ID u' = none) ∧
    (∀ u title description u',
        jsonFind (runJson ops) u' ((runJson ops).AddTask u title description).2.ID = none) := by
  have hm := MemWF_runMem ops
  have hj := JsonWF_runJson ops
  refine ⟨?_, fun id u1 u2 h1 h2 => hj.uniqueOwner u1 u2 id h1 h2, ?_, ?_⟩
  · intro id u1 u2 h1 h2
    obtain ⟨m1, hm1, hu1⟩ := memFind_ne_none_elim _ _ _ h1
    obtain ⟨m2, hm2, hu2⟩ := memFind_ne_none_elim _ _ _ h2
    obtain ⟨u0, t0, hmap⟩ := hm.singletons id m1 hm1
    subst hmap
    rw [hm1] at hm2
    rw [← Option.some_inj.mp hm2] at hu2
    have e1 : u1 = u0 := by
      by_cases h' : u0 = u1
      · exact h'.symm
      · simp [mfind?, h'] at hu1
    have e2 : u2 = u0 := by
      by_cases h' : u0 = u2
      · exact h'.symm
      · simp [mfind?, h'] at hu2
    rw [e1, e2]
  · intro u title description u'
    rw [memFind_eq, (MemWF_AddTask (runMem ops) u title description hm).2.1]
    rfl
  · intro u title description u'
    exact (JsonWF_AddTask (runJson ops) u title description hj).2.1 u'

theorem C2_identifier_uniqueness_witness :
    (memFind (runMem [Op.add "a" "x" "y"]) 1 "a" ≠ none) ∧
    (jsonFind (runJson [Op.add "a" "x" "y"]) "a" 1 ≠ none) ∧
    ("a" : String) = "a" ∧ ("a" : String) = "a" :=
  ⟨by decide, by decide,
    (C2_identifier_uniqueness [Op.add "a" "x" "y"]).1 1 "a" "a"
      (by decide) (by decide),
    (C2_identifier_uniqueness [Op.add "a" "x" "y"]).2.1 1 "a" "a"
      (by decide) (by decide)⟩

/-- C3 counterexample: the claim says every fallible operation fails with an
error identical across the never-issued, not-live and wrong-owner cases.
`inMemoryTaskStore.RemoveTask` refutes it: with user b owning task 1,
removing a never-issued id as user a errors `"task not found"` while
removing b's task 1 as user a errors `"task not found for user"` — two
distinguishable errors; the file backend likewise answers
`"user not found"` in the unknown-user case. -/
theorem C3_error_uniformity_counterexample :
    ((runMem [Op.add "b" "x" "y"]).RemoveTask "a" 99999).2 =
      some "task not found" ∧
    ((runMem [Op.add "b" "x" "y"]).RemoveTask "a" 1).2 =
      some "task not found for user" ∧
    ((runJson [Op.add "b" "x" "y"]).RemoveTask "a" 1).2 =
      some "user not found" ∧
    "task not found" ≠ "task not found for user" := by
  exact ⟨by decide, by decide, by decide, by decide⟩

/-- C3 amended: every fallible operation fails only with a not-found-style
error.  `GetTask` and `CompleteTask` (both backends) return the one error
`"task not found for user"` in every miss case, indistinguishably.
`RemoveTask`, however, distinguishes the miss cases: the in-memory backend
answers `"task not found"` when no live task has the id and
`"task not found for user"` when the id is live but not owned by the caller;
the file backend answers `"user not found"` when the user owns no tasks at
all and `"task not found for user"` otherwise. -/
theorem C3_not_found_errors_amended (s : inMemoryTaskStore) (sj : jsonTaskStore)
    (u : String) (id : Int) :
    (∀ e, s.GetTask u id = .error e → e = "task not found for user") ∧
    (∀ e, (s.CompleteTask u id).2 = some e → e = "task not found for user") ∧
    (∀ e, sj.GetTask u id = .error e → e = "task not found for user") ∧
    (∀ e, (sj.CompleteTask u id).2 = some e → e = "task not found for user") ∧
    (∀ e, (s.RemoveTask u id).2 = some e →
      (e = "task not found" ∧ mfind? s.tasks id = none) ∨
      (e = "task not found for user" ∧
        ∃ m, mfind? s.tasks id = some m ∧ mfind? m u = none)) ∧
    (∀ e, (sj.RemoveTask u id).2 = some e →
      (e = "user not found" ∧ mfind? sj.tasks u = none) ∨
      (e = "task not found for user" ∧
        ∃ m, mfind? sj.tasks u = some m ∧ mfind? m id = none)) :=
  ⟨mem_GetTask_err s u id,
   fun e he => (mem_CompleteTask_err s u id e he).2.1,
   json_GetTask_err sj u id,
   fun e he => (json_CompleteTask_err sj u id e he).2.1,
   fun e he => (mem_RemoveTask_err s u id e he).2,
   fun e he => (json_RemoveTask_err sj u id e he).2⟩

theorem C3_not_found_errors_amended_witness :
    localTaskStore.GetTask "a" 1 = .error "task not found for user" ∧
    "task not found for user" = "task not found for user" :=
  ⟨rfl,
    (C3_not_found_errors_amended localTaskStore newJSONTaskStore "a" 1).1
      "task not found for user" rfl⟩

/-- C4: ownership isolation.  If no call of a sequence is issued for user
`u`, then `ListTasks u` is empty afterwards (both backends), because tasks
only ever appear under the user that created them.  Moreover no single
operation issued for another user changes `u`'s live-task view (in-memory,
on a well-formed store) or `u`'s slot of the task table (file backend) — in
particular no operation ever re-assigns an existing task to another owner. -/
theorem C4_ownership_isolation (u : String) :
    (∀ ops, (∀ op ∈ ops, op.user ≠ u) →
      (runMem ops).ListTasks u = [] ∧ (runJson ops).ListTasks u = []) ∧
    (∀ (s : inMemoryTaskStore) (op : Op), MemWF s → op.user ≠ u →
      ∀ id, memFind (execMem s op) id u = memFind s id u) ∧
    (∀ (s : jsonTaskStore) (op : Op), op.user ≠ u →
      mfind? (execJson s op).tasks u = mfind? s.tasks u) := by
  refine ⟨?_, fun s op hwf hne => memFind_exec_frame s op u hwf hne,
    fun s op hne => json_user_frame s op u hne⟩
  intro ops hops
  constructor
  · refine mem_listTasks_nil (runMem ops) u (MemWF_runMem ops).keysNodup ?_
    exact mem_foldl_none u ops localTaskStore MemWF_localTaskStore
      (fun id => rfl) hops
  · have hnone := json_foldl_none u ops newJSONTaskStore rfl hops
    unfold jsonTaskStore.ListTasks runJson
    rw [hnone]
    rfl

theorem C4_ownership_isolation_witness :
    ((runMem [Op.add "b" "x" "y"]).ListTasks "a" = [] ∧
      (runJson [Op.add "b" "x" "y"]).ListTasks "a" = []) ∧
    (memFind (execMem (runMem [Op.add "b" "x" "y"]) (Op.complete "b" 1)) 1 "a" =
      memFind (runMem [Op.add "b" "x" "y"]) 1 "a") ∧
    (mfind? (execJson (runJson [Op.add "b" "x" "y"]) (Op.complete "b" 1)).tasks "a" =
      mfind? (runJson [Op.add "b" "x" "y"]).tasks "a") :=
  ⟨(C4_ownership_isolation "a").1 [Op.add "b" "x" "y"] (by decide),
   (C4_ownership_isolation "a").2.1 (runMem [Op.add "b" "x" "y"])
     (Op.complete "b" 1) (MemWF_runMem [Op.add "b" "x" "y"]) (by decide) 1,
   (C4_ownership_isolation "a").2.2 (runJson [Op.add "b" "x" "y"])
     (Op.complete "b" 1) (by decide)⟩

/-- C5: completing a live task succeeds; completing it again immediately
also succeeds (no "already completed" error), and the task's `Completed`
field is true after each of the two calls (both backends). -/
theorem C5_idempotent_completion (s : inMemoryTaskStore) (sj : jsonTaskStore)
    (u : String) (id : Int) :
    ((s.CompleteTask u id).2 = none →
      ((s.CompleteTask u id).1.CompleteTask u id).2 = none ∧
      (∃ t, memFind (s.CompleteTask u id).1 id u = some t ∧ t.Completed = true) ∧
      (∃ t, memFind ((s.CompleteTask u id).1.CompleteTask u id).1 id u = some t ∧
        t.Completed = true)) ∧
    ((sj.CompleteTask u id).2 = none →
      ((sj.CompleteTask u id).1.CompleteTask u id).2 = none ∧
      (∃ t, jsonFind (sj.CompleteTask u id).1 u id = some t ∧ t.Completed = true) ∧
      (∃ t, jsonFind ((sj.CompleteTask u id).1.CompleteTask u id).1 u id = some t ∧
        t.Completed = true)) := by
  constructor
  · intro h1
    have hlive : memFind s id u ≠ none := (mem_CompleteTask_ok_iff s u id).mp h1
    obtain ⟨t0, ht0⟩ := Option.ne_none_iff_exists'.mp hlive
    have hv1 : memFind (s.CompleteTask u id).1 id u =
        some { t0 with Completed := true } := by
      rw [memFind_CompleteTask]
      simp [ht0]
    have h2 : ((s.CompleteTask u id).1.CompleteTask u id).2 = none :=
      (mem_CompleteTask_ok_iff _ u id).mpr (by rw [hv1]; simp)
    have hv2 : memFind ((s.CompleteTask u id).1.CompleteTask u id).1 id u =
        some { t0 with Completed := true } := by
      rw [memFind_CompleteTask]
      simp [hv1]
    exact ⟨h2, ⟨_, hv1, rfl⟩, ⟨_, hv2, rfl⟩⟩
  · intro h1
    have hlive : jsonFind sj u id ≠ none := (json_CompleteTask_ok_iff sj u id).mp h1
    obtain ⟨t0, ht0⟩ := Option.ne_none_iff_exists'.mp hlive
    have hv1 : jsonFind (sj.CompleteTask u id).1 u id =
        some { t0 with Completed := true } := by
      rw [jsonFind_CompleteTask]
      simp [ht0]
    have h2 : ((sj.CompleteTask u id).1.CompleteTask u id).2 = none :=
      (json_CompleteTask_ok_iff _ u id).mpr (by rw [hv1]; simp)
    have hv2 : jsonFind ((sj.CompleteTask u id).1.CompleteTask u id).1 u id =
        some { t0 with Completed := true } := by
      rw [jsonFind_CompleteTask]
      simp [hv1]
    exact ⟨h2, ⟨_, hv1, rfl⟩, ⟨_, hv2, rfl⟩⟩

theorem C5_idempotent_completion_witness :
    ((runMem [Op.add "a" "x" "y"]).CompleteTask "a" 1).2 = none ∧
    ((runJson [Op.add "a" "x" "y"]).CompleteTask "a" 1).2 = none ∧
    ((((runMem [Op.add "a" "x" "y"]).CompleteTask "a" 1).1.CompleteTask "a" 1).2 = none ∧
      (∃ t, memFind ((runMem [Op.add "a" "x" "y"]).CompleteTask "a" 1).1 1 "a" = some t ∧
        t.Completed = true) ∧
      (∃ t, memFind (((runMem [Op.add "a" "x" "y"]).CompleteTask "a" 1).1.CompleteTask "a" 1).1
        1 "a" = some t ∧ t.Completed = true)) ∧
    ((((runJson [Op.add "a" "x" "y"]).CompleteTask "a" 1).1.CompleteTask "a" 1).2 = none ∧
      (∃ t, jsonFind ((runJson [Op.add "a" "x" "y"]).CompleteTask "a" 1).1 "a" 1 = some t ∧
        t.Completed = true) ∧
      (∃ t, jsonFind (((runJson [Op.add "a" "x" "y"]).CompleteTask "a" 1).1.CompleteTask "a" 1).1
        "a" 1 = some t ∧ t.Completed = true)) :=
  ⟨by decide, by decide,
   (C5_idempotent_completion (runMem [Op.add "a" "x" "y"])
     (runJson [Op.add "a" "x" "y"]) "a" 1).1 (by decide),
   (C5_idempotent_completion (runMem [Op.add "a" "x" "y"])
     (runJson [Op.add "a" "x" "y"]) "a" 1).2 (by decide)⟩

/-- C6: file-backend persistence is synchronous: immediately when `AddTask`
returns, and when `RemoveTask` or `CompleteTask` return successfully, the
backing document equals the current in-memory task collection (the model
identifies the JSON document with its decoded value, serialization being
injective on this data). -/
theorem C6_save_after_mutation (s : jsonTaskStore) (u title description : String)
    (id : Int) :
    (s.AddTask u title description).1.file = (s.AddTask u title description).1.tasks ∧
    ((s.RemoveTask u id).2 = none →
      (s.RemoveTask u id).1.file = (s.RemoveTask u id).1.tasks) ∧
    ((s.CompleteTask u id).2 = none →
      (s.CompleteTask u id).1.file = (s.CompleteTask u id).1.tasks) :=
  ⟨(json_AddTask_alloc s u title description).2.1,
   json_RemoveTask_file s u id,
   (json_CompleteTask_frame s u id).2.2⟩

theorem C6_save_after_mutation_witness :
    ((runJson [Op.add "a" "x" "y"]).RemoveTask "a" 1).2 = none ∧
    ((runJson [Op.add "a" "x" "y"]).CompleteTask "a" 1).2 = none ∧
    ((runJson [Op.add "a" "x" "y"]).RemoveTask "a" 1).1.file =
      ((runJson [Op.add "a" "x" "y"]).RemoveTask "a" 1).1.tasks ∧
    ((runJson [Op.add "a" "x" "y"]).CompleteTask "a" 1).1.file =
      ((runJson [Op.add "a" "x" "y"]).CompleteTask "a" 1).1.tasks :=
  ⟨by decide, by decide,
   (C6_save_after_mutation (runJson [Op.add "a" "x" "y"]) "a" "x" "y" 1).2.1
     (by decide),
   (C6_save_after_mutation (runJson [Op.add "a" "x" "y"]) "a" "x" "y" 1).2.2
     (by decide)⟩

/-- C7: loading the file backend from a persisted collection sets the
high-water mark to the maximum identifier among all live tasks, 0 when there
are none (identifiers persisted by this engine are always ≥ 1, which the
maximum statement assumes), and rebuilds the free-list as exactly the
identifiers in `[1, high-water mark)` held by no live task, in ascending
order. -/
theorem C7_load_reconstruction (file : List (String × List (Int × Task))) :
    (∀ id, id ∈ (jsonTaskStore.loadFromFile file).reusableIds ↔
      (1 ≤ id ∧ id < (jsonTaskStore.loadFromFile file).idSeq ∧
        ¬ ∃ p ∈ file, ∃ q ∈ p.2, q.1 = id)) ∧
    List.Sorted (· < ·) (jsonTaskStore.loadFromFile file).reusableIds ∧
    ((∀ p ∈ file, ∀ q ∈ p.2, 1 ≤ q.1) →
      ((∀ p ∈ file, ∀ q ∈ p.2, q.1 ≤ (jsonTaskStore.loadFromFile file).idSeq) ∧
       ((∃ p ∈ file, p.2 ≠ []) →
         ∃ p ∈ file, ∃ q ∈ p.2, q.1 = (jsonTaskStore.loadFromFile file).idSeq) ∧
       ((∀ p ∈ file, p.2 = []) → (jsonTaskStore.loadFromFile file).idSeq = 0))) := by
  have hseq : (jsonTaskStore.loadFromFile file).idSeq = fileHighestID file := rfl
  have hreu : (jsonTaskStore.loadFromFile file).reusableIds =
      ((List.range (fileHighestID file - 1).toNat).map
        (fun n => Int.ofNat n + 1)).filter (fun id => ! fileUsed file id) := rfl
  have hnn := fileHighestID_nonneg file
  refine ⟨?_, ?_, ?_⟩
  · intro id
    rw [hreu, hseq, List.mem_filter, List.mem_map]
    constructor
    · rintro ⟨⟨n, hn, rfl⟩, hused⟩
      rw [List.mem_range] at hn
      simp only [Bool.not_eq_true'] at hused
      refine ⟨by simp only [Int.ofNat_eq_coe]; omega,
        by simp only [Int.ofNat_eq_coe]; omega, fun hex => ?_⟩
      rw [← fileUsed_iff file (Int.ofNat n + 1)] at hex
      rw [hex] at hused
      cases hused
    · rintro ⟨h1, h2, hnotused⟩
      refine ⟨⟨(id - 1).toNat, ?_, by simp only [Int.ofNat_eq_coe]; omega⟩, ?_⟩
      · rw [List.mem_range]
        omega
      · simp only [Bool.not_eq_true']
        cases hU : fileUsed file id with
        | false => rfl
        | true => exact absurd ((fileUsed_iff file id).mp hU) hnotused
  · rw [hreu]
    exact List.Pairwise.filter _
      (List.Pairwise.map (fun n => Int.ofNat n + 1)
        (fun a b h => by simp only [Int.ofNat_eq_coe]; omega)
        (List.sorted_lt_range _))
  · intro hpos
    refine ⟨fun p hp q hq => hseq ▸ fileHighestID_ub file p hp q hq, ?_, ?_⟩
    · rintro ⟨p, hp, hne⟩
      rcases fileHighestID_cases file with h0 | hatt
      · exfalso
        cases hq : p.2 with
        | nil => exact hne hq
        | cons q rest =>
          have hq1 : q ∈ p.2 := by rw [hq]; exact List.mem_cons_self q rest
          have := fileHighestID_ub file p hp q hq1
          have := hpos p hp q hq1
          omega
      · obtain ⟨p', hp', q', hq', heq⟩ := hatt
        exact ⟨p', hp', q', hq', by rw [hseq, heq]⟩
    · intro hall
      rcases fileHighestID_cases file with h0 | hatt
      · rw [hseq, h0]
      · obtain ⟨p', hp', q', hq', _⟩ := hatt
        rw [hall p' hp'] at hq'
        cases hq'

theorem C7_load_reconstruction_witness :
    (∀ p ∈ [("a", [((2 : Int), Task.mk 2 "x" "y" false)])], ∀ q ∈ p.2, 1 ≤ q.1) ∧
    ((∀ p ∈ [("a", [((2 : Int), Task.mk 2 "x" "y" false)])], ∀ q ∈ p.2,
        q.1 ≤ (jsonTaskStore.loadFromFile
          [("a", [((2 : Int), Task.mk 2 "x" "y" false)])]).idSeq) ∧
     ((∃ p ∈ [("a", [((2 : Int), Task.mk 2 "x" "y" false)])], p.2 ≠ []) →
        ∃ p ∈ [("a", [((2 : Int), Task.mk 2 "x" "y" false)])], ∃ q ∈ p.2,
          q.1 = (jsonTaskStore.loadFromFile
            [("a", [((2 : Int), Task.mk 2 "x" "y" false)])]).idSeq) ∧
     ((∀ p ∈ [("a", [((2 : Int), Task.mk 2 "x" "y" false)])], p.2 = []) →
        (jsonTaskStore.loadFromFile
          [("a", [((2 : Int), Task.mk 2 "x" "y" false)])]).idSeq = 0)) :=
  ⟨by decide,
   (C7_load_reconstruction [("a", [((2 : Int), Task.mk 2 "x" "y" false)])]).2.2
     (by decide)⟩

/-- No operation changes the `ID`, `Title` or `Description` a live task of
user `u` keeps while staying live (in-memory backend, well-formed store). -/
theorem mem_fields_frame (s : inMemoryTaskStore) (op : Op) (u : String)
    (hwf : MemWF s) (i : Int) (t t' : Task)
    (h1 : memFind s i u = some t) (h2 : memFind (execMem s op) i u = some t') :
    t'.ID = t.ID ∧ t'.Title = t.Title ∧ t'.Description = t.Description := by
  cases op with
  | add u0 title description =>
    rw [show execMem s (Op.add u0 title description) =
      (s.AddTask u0 title description).1 from rfl, memFind_AddTask] at h2
    by_cases hc : i = (s.AddTask u0 title description).2.ID ∧ u = u0
    · exfalso
      have hfresh := (MemWF_AddTask s u0 title description hwf).2.1
      rw [hc.1, memFind_eq, hfresh] at h1
      cases h1
    · rw [if_neg hc, h1] at h2
      rw [← Option.some_inj.mp h2]
      exact ⟨rfl, rfl, rfl⟩
  | remove u0 i0 =>
    cases hres : (s.RemoveTask u0 i0).2 with
    | some e =>
      rw [show execMem s (Op.remove u0 i0) = (s.RemoveTask u0 i0).1 from rfl,
        (mem_RemoveTask_err s u0 i0 e hres).1, h1] at h2
      rw [← Option.some_inj.mp h2]
      exact ⟨rfl, rfl, rfl⟩
    | none =>
      obtain ⟨hview, _, _⟩ :=
        mem_RemoveTask_ok s u0 i0 hwf.keysNodup hwf.singletons hres
      rw [show execMem s (Op.remove u0 i0) = (s.RemoveTask u0 i0).1 from rfl,
        hview i u] at h2
      by_cases hc : i = i0
      · rw [if_pos hc] at h2
        cases h2
      · rw [if_neg hc, h1] at h2
        rw [← Option.some_inj.mp h2]
        exact ⟨rfl, rfl, rfl⟩
  | complete u0 i0 =>
    rw [show execMem s (Op.complete u0 i0) = (s.CompleteTask u0 i0).1 from rfl,
      memFind_CompleteTask] at h2
    by_cases hc : i = i0 ∧ u = u0
    · rw [if_pos hc, ← hc.1, ← hc.2, h1] at h2
      simp only [Option.map_some'] at h2
      rw [← Option.some_inj.mp h2]
      exact ⟨rfl, rfl, rfl⟩
    · rw [if_neg hc, h1] at h2
      rw [← Option.some_inj.mp h2]
      exact ⟨rfl, rfl, rfl⟩
  | get u0 i0 =>
    rw [show execMem s (Op.get u0 i0) = s from rfl, h1] at h2
    rw [← Option.some_inj.mp h2]
    exact ⟨rfl, rfl, rfl⟩
  | list u0 =>
    rw [show execMem s (Op.list u0) = s from rfl, h1] at h2
    rw [← Option.some_inj.mp h2]
    exact ⟨rfl, rfl, rfl⟩

/-- Same statement for the file backend. -/
theorem json_fields_frame (s : jsonTaskStore) (op : Op) (u : String)
    (hwf : JsonWF s) (i : Int) (t t' : Task)
    (h1 : jsonFind s u i = some t) (h2 : jsonFind (execJson s op) u i = some t') :
    t'.ID = t.ID ∧ t'.Title = t.Title ∧ t'.Description = t.Description := by
  cases op with
  | add u0 title description =>
    rw [show execJson s (Op.add u0 title description) =
      (s.AddTask u0 title description).1 from rfl, jsonFind_AddTask] at h2
    by_cases hc : u = u0 ∧ i = (s.AddTask u0 title description).2.ID
    · exfalso
      have hfresh := (JsonWF_AddTask s u0 title description hwf).2.1 u
      rw [hc.2, hfresh] at h1
      cases h1
    · rw [if_neg hc, h1] at h2
      rw [← Option.some_inj.mp h2]
      exact ⟨rfl, rfl, rfl⟩
  | remove u0 i0 =>
    cases hres : (s.RemoveTask u0 i0).2 with
    | some e =>
      rw [show execJson s (Op.remove u0 i0) = (s.RemoveTask u0 i0).1 from rfl,
        (json_RemoveTask_err s u0 i0 e hres).1, h1] at h2
      rw [← Option.some_inj.mp h2]
      exact ⟨rfl, rfl, rfl⟩
    | none =>
      obtain ⟨hview, _, _, _⟩ := json_RemoveTask_ok s u0 i0 hwf.usersNodup
        (fun m hm => hwf.mapsNodup u0 m hm) hres
      rw [show execJson s (Op.remove u0 i0) = (s.RemoveTask u0 i0).1 from rfl,
        hview u i] at h2
      by_cases hc : u = u0 ∧ i = i0
      · rw [if_pos hc] at h2
        cases h2
      · rw [if_neg hc, h1] at h2
        rw [← Option.some_inj.mp h2]
        exact ⟨rfl, rfl, rfl⟩
  | complete u0 i0 =>
    rw [show execJson s (Op.complete u0 i0) = (s.CompleteTask u0 i0).1 from rfl,
      jsonFind_CompleteTask] at h2
    by_cases hc : u = u0 ∧ i = i0
    · rw [if_pos hc, ← hc.1, ← hc.2, h1] at h2
      simp only [Option.map_some'] at h2
      rw [← Option.some_inj.mp h2]
      exact ⟨rfl, rfl, rfl⟩
    · rw [if_neg hc, h1] at h2
      rw [← Option.some_inj.mp h2]
      exact ⟨rfl, rfl, rfl⟩
  | get u0 i0 =>
    rw [show execJson s (Op.get u0 i0) = s from rfl, h1] at h2
    rw [← Option.some_inj.mp h2]
    exact ⟨rfl, rfl, rfl⟩
  | list u0 =>
    rw [show execJson s (Op.list u0) = s from rfl, h1] at h2
    rw [← Option.some_inj.mp h2]
    exact ⟨rfl, rfl, rfl⟩

/-- C8: a successful `CompleteTask` sets exactly the targeted task's
`Completed` field to true, leaving its id, title and description, every
other slot of the store, the id sequence and the free-list unchanged (both
backends); moreover no operation whatsoever changes the id, title or
description of a task of user `u` that stays live across it — there is no
update-title/description edge. -/
theorem C8_complete_frame (s : inMemoryTaskStore) (sj : jsonTaskStore)
    (u : String) (id : Int) :
    ((s.CompleteTask u id).2 = none →
      (∃ t, memFind s id u = some t ∧
        memFind (s.CompleteTask u id).1 id u = some { t with Completed := true }) ∧
      (∀ id' u', ¬(id' = id ∧ u' = u) →
        memFind (s.CompleteTask u id).1 id' u' = memFind s id' u') ∧
      (s.CompleteTask u id).1.idSeq = s.idSeq ∧
      (s.CompleteTask u id).1.reusableIds = s.reusableIds) ∧
    ((sj.CompleteTask u id).2 = none →
      (∃ t, jsonFind sj u id = some t ∧
        jsonFind (sj.CompleteTask u id).1 u id = some { t with Completed := true }) ∧
      (∀ u' id', ¬(u' = u ∧ id' = id) →
        jsonFind (sj.CompleteTask u id).1 u' id' = jsonFind sj u' id') ∧
      (sj.CompleteTask u id).1.idSeq = sj.idSeq ∧
      (sj.CompleteTask u id).1.reusableIds = sj.reusableIds) ∧
    (∀ (op : Op) (s' : inMemoryTaskStore), MemWF s' → ∀ i t t',
      memFind s' i u = some t → memFind (execMem s' op) i u = some t' →
      t'.ID = t.ID ∧ t'.Title = t.Title ∧ t'.Description = t.Description) ∧
    (∀ (op : Op) (sj' : jsonTaskStore), JsonWF sj' → ∀ i t t',
      jsonFind sj' u i = some t → jsonFind (execJson sj' op) u i = some t' →
      t'.ID = t.ID ∧ t'.Title = t.Title ∧ t'.Description = t.Description) := by
  refine ⟨?_, ?_,
    fun op s' hwf i t t' h1 h2 => mem_fields_frame s' op u hwf i t t' h1 h2,
    fun op sj' hwf i t t' h1 h2 => json_fields_frame sj' op u hwf i t t' h1 h2⟩
  · intro h1
    have hlive : memFind s id u ≠ none := (mem_CompleteTask_ok_iff s u id).mp h1
    obtain ⟨t0, ht0⟩ := Option.ne_none_iff_exists'.mp hlive
    refine ⟨⟨t0, ht0, ?_⟩, ?_, (mem_CompleteTask_frame s u id).1,
      (mem_CompleteTask_frame s u id).2⟩
    · rw [memFind_CompleteTask]
      simp [ht0]
    · intro id' u' hc
      rw [memFind_CompleteTask]
      exact if_neg hc
  · intro h1
    have hlive : jsonFind sj u id ≠ none := (json_CompleteTask_ok_iff sj u id).mp h1
    obtain ⟨t0, ht0⟩ := Option.ne_none_iff_exists'.mp hlive
    refine ⟨⟨t0, ht0, ?_⟩, ?_, (json_CompleteTask_frame sj u id).1,
      (json_CompleteTask_frame sj u id).2.1⟩
    · rw [jsonFind_CompleteTask]
      simp [ht0]
    · intro u' id' hc
      rw [jsonFind_CompleteTask]
      exact if_neg hc

theorem C8_complete_frame_witness :
    ((runMem [Op.add "a" "x" "y", Op.add "a" "p" "q"]).CompleteTask "a" 1).2 = none ∧
    ((runJson [Op.add "a" "x" "y", Op.add "a" "p" "q"]).CompleteTask "a" 1).2 = none ∧
    (memFind ((runMem [Op.add "a" "x" "y", Op.add "a" "p" "q"]).CompleteTask "a" 1).1
        2 "a" =
      memFind (runMem [Op.add "a" "x" "y", Op.add "a" "p" "q"]) 2 "a") ∧
    (jsonFind ((runJson [Op.add "a" "x" "y", Op.add "a" "p" "q"]).CompleteTask "a" 1).1
        "a" 2 =
      jsonFind (runJson [Op.add "a" "x" "y", Op.add "a" "p" "q"]) "a" 2) :=
  ⟨by decide, by decide,
   ((C8_complete_frame (runMem [Op.add "a" "x" "y", Op.add "a" "p" "q"])
       (runJson [Op.add "a" "x" "y", Op.add "a" "p" "q"]) "a" 1).1
     (by decide)).2.1 2 "a" (by decide),
   ((C8_complete_frame (runMem [Op.add "a" "x" "y", Op.add "a" "p" "q"])
       (runJson [Op.add "a" "x" "y", Op.add "a" "p" "q"]) "a" 1).2.1
     (by decide)).2.1 "a" 2 (by decide)⟩

/-- C9: whenever `RemoveTask` or `CompleteTask` returns its not-found error,
the returned store — task table, id sequence, free-list and, for the file
backend, the backing document — is exactly the input store (both backends).
`GetTask` takes the store immutably and returns no store at all, so it
cannot change state by construction. -/
theorem C9_notfound_leaves_state (s : inMemoryTaskStore) (sj : jsonTaskStore)
    (u : String) (id : Int) :
    ((s.RemoveTask u id).2.isSome → (s.RemoveTask u id).1 = s) ∧
    ((s.CompleteTask u id).2.isSome → (s.CompleteTask u id).1 = s) ∧
    ((sj.RemoveTask u id).2.isSome → (sj.RemoveTask u id).1 = sj) ∧
    ((sj.CompleteTask u id).2.isSome → (sj.CompleteTask u id).1 = sj) := by
  refine ⟨fun h => ?_, fun h => ?_, fun h => ?_, fun h => ?_⟩
  · obtain ⟨e, he⟩ := Option.isSome_iff_exists.mp h
    exact (mem_RemoveTask_err s u id e he).1
  · obtain ⟨e, he⟩ := Option.isSome_iff_exists.mp h
    exact (mem_CompleteTask_err s u id e he).1
  · obtain ⟨e, he⟩ := Option.isSome_iff_exists.mp h
    exact (json_RemoveTask_err sj u id e he).1
  · obtain ⟨e, he⟩ := Option.isSome_iff_exists.mp h
    exact (json_CompleteTask_err sj u id e he).1

theorem C9_notfound_leaves_state_witness :
    ((localTaskStore.RemoveTask "a" 1).2.isSome = true) ∧
    ((newJSONTaskStore.RemoveTask "a" 1).2.isSome = true) ∧
    (localTaskStore.RemoveTask "a" 1).1 = localTaskStore ∧
    (localTaskStore.CompleteTask "a" 1).1 = localTaskStore ∧
    (newJSONTaskStore.RemoveTask "a" 1).1 = newJSONTaskStore ∧
    (newJSONTaskStore.CompleteTask "a" 1).1 = newJSONTaskStore :=
  ⟨by decide, by decide,
   (C9_notfound_leaves_state localTaskStore newJSONTaskStore "a" 1).1 (by decide),
   (C9_notfound_leaves_state localTaskStore newJSONTaskStore "a" 1).2.1 (by decide),
   (C9_notfound_leaves_state localTaskStore newJSONTaskStore "a" 1).2.2.1 (by decide),
   (C9_notfound_leaves_state localTaskStore newJSONTaskStore "a" 1).2.2.2 (by decide)⟩

/-- C10: in reachable file-backed stores, no username ever maps to an empty
task collection, neither in memory nor in the backing document; removing a
user's only remaining task deletes the username key itself (in memory and on
disk), and a `RemoveTask` for a user without a key fails with the user-level
error `"user not found"`, not the task-level `"task not found for user"`. -/
theorem C10_user_key_removed (ops : List Op) (s : jsonTaskStore)
    (u : String) (id id2 : Int) :
    (∀ u' m, mfind? (runJson ops).tasks u' = some m → m ≠ []) ∧
    (∀ u' m, mfind? (runJson ops).file u' = some m → m ≠ []) ∧
    (mfind? s.tasks u = none → (s.RemoveTask u id).2 = some "user not found") ∧
    (JsonWF s → ∀ t, mfind? s.tasks u = some [(id, t)] →
      (s.RemoveTask u id).2 = none ∧
      mfind? (s.RemoveTask u id).1.tasks u = none ∧
      mfind? (s.RemoveTask u id).1.file u = none ∧
      ((s.RemoveTask u id).1.RemoveTask u id2).2 = some "user not found") := by
  refine ⟨(JsonWF_runJson ops).mapsNonempty, (JsonWF_runJson ops).fileOk, ?_, ?_⟩
  · intro hnone
    simp only [jsonTaskStore.RemoveTask, hnone]
  · intro hwf t hm
    have hidfind : mfind? [(id, t)] id = some t := by simp [mfind?]
    have hemp : merase [(id, t)] id = [] := by simp [merase]
    have key : (s.RemoveTask u id).1 =
        { tasks := merase s.tasks u
          idSeq := s.idSeq
          reusableIds := s.reusableIds ++ [id]
          file := merase s.tasks u } := by
      simp only [jsonTaskStore.RemoveTask, hm, hidfind, hemp,
        jsonTaskStore.saveToFile, eq_self_iff_true, if_true]
    have hres : (s.RemoveTask u id).2 = none := by
      simp only [jsonTaskStore.RemoveTask, hm, hidfind, jsonTaskStore.saveToFile]
    have hgone : mfind? (s.RemoveTask u id).1.tasks u = none := by
      rw [key]
      exact mfind?_merase_self _ _ hwf.usersNodup
    refine ⟨hres, hgone, ?_, ?_⟩
    · rw [key]
      exact mfind?_merase_self _ _ hwf.usersNodup
    · rw [key]
      have hgone2 : mfind? (merase s.tasks u) u = none :=
        mfind?_merase_self _ _ hwf.usersNodup
      simp only [jsonTaskStore.RemoveTask, hgone2]

theorem C10_user_key_removed_witness :
    ((runJson [Op.add "a" "x" "y"]).RemoveTask "b" 5).2 = some "user not found" ∧
    (((runJson [Op.add "a" "x" "y"]).RemoveTask "a" 1).2 = none ∧
      mfind? ((runJson [Op.add "a" "x" "y"]).RemoveTask "a" 1).1.tasks "a" = none ∧
      mfind? ((runJson [Op.add "a" "x" "y"]).RemoveTask "a" 1).1.file "a" = none ∧
      (((runJson [Op.add "a" "x" "y"]).RemoveTask "a" 1).1.RemoveTask "a" 2).2 =
        some "user not found") :=
  ⟨(C10_user_key_removed [] (runJson [Op.add "a" "x" "y"]) "b" 5 0).2.2.1 (by decide),
   (C10_user_key_removed [] (runJson [Op.add "a" "x" "y"]) "a" 1 2).2.2.2
     (JsonWF_runJson [Op.add "a" "x" "y"])
     { ID := 1, Title := "x", Description := "y", Completed := false } (by decide)⟩

end ToDo
